import Mathlib

/-!
Verification of the Lito docs CLI content-sync pipeline.

Strings from the JavaScript source are embedded as `List Char` and the
relevant functions of `src/core/sync.js`, `src/core/landing-sync.js` and
`src/core/scaffold.js` are translated as executable Lean definitions.
-/

set_option linter.unusedVariables false

namespace Lito

/-- Strings are modelled as lists of characters. -/
abbrev Str := List Char

/-- Coerce a Lean string literal to the `List Char` model. -/
def strOf (s : String) : Str := s.data

/-- JavaScript whitespace test used by `String.prototype.trim` (common cases). -/
def isWS (c : Char) : Bool := c = ' ' ∨ c = '\t' ∨ c = '\n' ∨ c = '\r'

/-- `String.prototype.trimStart`. -/
def trimLeft (s : Str) : Str := s.dropWhile isWS

/-- `String.prototype.trimEnd`. -/
def trimRight (s : Str) : Str := (s.reverse.dropWhile isWS).reverse

/-- `String.prototype.trim`. -/
def trim (s : Str) : Str := trimRight (trimLeft s)

/-- First index `≥ i` at which `pat` occurs in `s` (the tail of the scanned
string is `s`; `i` is the index label of its first character).  This is the
scanning core of `String.prototype.indexOf`. -/
def findIdxFrom (pat : Str) : Str → Nat → Option Nat
  | [], i => if pat.isPrefixOf [] then some i else none
  | c :: t, i => if pat.isPrefixOf (c :: t) then some i else findIdxFrom pat t (i + 1)

/-- `String.prototype.indexOf(pat, start)`. -/
def jsIndexOf (pat s : Str) (start : Nat) : Option Nat :=
  findIdxFrom pat (s.drop start) start

/-- `String.prototype.includes(pat)`. -/
def includes (pat s : Str) : Bool := (findIdxFrom pat s 0).isSome

/-- Number of occurrence positions of `pat` in `s`
(indices `i` with `pat` a prefix of `s.drop i`). -/
def countOcc (pat : Str) : Str → Nat
  | [] => if pat.isPrefixOf ([] : Str) then 1 else 0
  | c :: t => (if pat.isPrefixOf (c :: t) then 1 else 0) + countOcc pat t

/-! ### Basic lemmas about the string model -/

theorem findIdxFrom_eq_some_iff (pat : Str) :
    ∀ (s : Str) (i j : Nat),
      findIdxFrom pat s i = some j ↔
        ∃ k, j = i + k ∧ pat <+: s.drop k ∧ ∀ m, m < k → ¬ pat <+: s.drop m := by
  intro s
  induction s with
  | nil =>
    intro i j
    simp only [findIdxFrom, List.drop_nil]
    constructor
    · intro h
      have hp : pat <+: ([] : Str) := by
        by_cases hb : pat.isPrefixOf ([] : Str)
        · exact List.isPrefixOf_iff_prefix.mp hb
        · rw [if_neg hb] at h; cases h
      have hj : j = i := by
        rw [if_pos (List.isPrefixOf_iff_prefix.mpr hp)] at h
        cases h; rfl
      exact ⟨0, by omega, hp, by omega⟩
    · rintro ⟨k, rfl, hpre, hmin⟩
      have hk0 : k = 0 := by
        by_contra hne
        exact hmin 0 (by omega) hpre
      subst hk0
      rw [if_pos (List.isPrefixOf_iff_prefix.mpr hpre)]
      simp
  | cons c t ih =>
    intro i j
    simp only [findIdxFrom]
    by_cases hp : pat <+: (c :: t)
    · rw [if_pos (List.isPrefixOf_iff_prefix.mpr hp)]
      constructor
      · intro h
        have hj : j = i := by
          cases h; rfl
        exact ⟨0, by omega, by simpa using hp, by omega⟩
      · rintro ⟨k, rfl, hpre, hmin⟩
        have hk0 : k = 0 := by
          by_contra hne
          exact hmin 0 (by omega) (by simpa using hp)
        subst hk0
        rfl
    · rw [if_neg (by simpa [List.isPrefixOf_iff_prefix] using hp)]
      rw [ih (i + 1) j]
      constructor
      · rintro ⟨k, hk, hpre, hmin⟩
        refine ⟨k + 1, by omega, by simpa using hpre, ?_⟩
        intro m hm
        cases m with
        | zero => simpa using hp
        | succ m' =>
          intro hcon
          exact hmin m' (by omega) (by simpa using hcon)
      · rintro ⟨k, hk, hpre, hmin⟩
        cases k with
        | zero => exact absurd (by simpa using hpre) hp
        | succ k' =>
          refine ⟨k', by omega, by simpa using hpre, ?_⟩
          intro m hm
          intro hcon
          exact hmin (m + 1) (by omega) (by simpa using hcon)

theorem infix_iff_exists_drop (pat s : Str) :
    pat <:+: s ↔ ∃ k, pat <+: s.drop k := by
  constructor
  · rintro ⟨a, b, rfl⟩
    refine ⟨a.length, ?_⟩
    have : (a ++ (pat ++ b)).drop a.length = pat ++ b := List.drop_left a (pat ++ b)
    rw [List.append_assoc] at *
    rw [this]
    exact List.prefix_append pat b
  · rintro ⟨k, hk⟩
    have hsuf : s.drop k <:+ s := List.drop_suffix k s
    rw [List.infix_iff_prefix_suffix]
    exact ⟨s.drop k, hk, hsuf⟩

theorem includes_true_iff (pat s : Str) : includes pat s = true ↔ pat <:+: s := by
  unfold includes
  rw [Option.isSome_iff_exists]
  constructor
  · rintro ⟨j, hj⟩
    rw [findIdxFrom_eq_some_iff] at hj
    rcases hj with ⟨k, -, hpre, -⟩
    exact (infix_iff_exists_drop pat s).mpr ⟨k, hpre⟩
  · intro h
    rcases (infix_iff_exists_drop pat s).mp h with ⟨k, hk⟩
    have hex : ∃ k, pat <+: s.drop k := ⟨k, hk⟩
    classical
    let k0 := Nat.find hex
    refine ⟨0 + k0, ?_⟩
    rw [findIdxFrom_eq_some_iff]
    exact ⟨k0, rfl, Nat.find_spec hex, fun m hm => Nat.find_min hex hm⟩

theorem not_includes_iff (pat s : Str) : includes pat s = false ↔ ¬ pat <:+: s := by
  rw [← includes_true_iff]
  cases h : includes pat s <;> simp [h]

/-- A prefix of an append that fits inside the left part is a prefix of it. -/
theorem prefix_left_of_le (pat x y : Str) (h : pat <+: x ++ y)
    (hle : pat.length ≤ x.length) : pat <+: x := by
  have h1 : pat = (x ++ y).take pat.length := List.prefix_iff_eq_take.mp h
  rw [List.take_append_eq_append_take] at h1
  have h2 : y.take (pat.length - x.length) = [] := by
    have : pat.length - x.length = 0 := by omega
    rw [this]; rfl
  rw [h2, List.append_nil] at h1
  rw [h1]
  exact List.take_prefix _ x

/-- If `pat` is a prefix of `x ++ c :: y` then either it fits inside `x`
or it runs over the separator `c`, in which case `c ∈ pat`. -/
theorem prefix_append_cons (pat x y : Str) (c : Char) (h : pat <+: x ++ c :: y) :
    pat <+: x ∨ c ∈ pat := by
  by_cases hle : pat.length ≤ x.length
  · exact Or.inl (prefix_left_of_le pat x (c :: y) h hle)
  · right
    have h1 : pat = (x ++ c :: y).take pat.length := List.prefix_iff_eq_take.mp h
    rw [List.take_append_eq_append_take] at h1
    have hxl : x.take pat.length = x := List.take_of_length_le (by omega)
    have hk : pat.length - x.length = (pat.length - x.length - 1) + 1 := by omega
    rw [hxl, hk] at h1
    simp only [List.take_succ_cons] at h1
    rw [h1]
    exact List.mem_append_right x (List.mem_cons_self c _)

/-- Prefix testing ignores material after a separator the pattern lacks. -/
theorem prefix_append_cons_iff (pat x y : Str) (c : Char) (hc : c ∉ pat) :
    pat <+: x ++ c :: y ↔ pat <+: x := by
  constructor
  · intro h
    rcases prefix_append_cons pat x y c h with h1 | h1
    · exact h1
    · exact absurd h1 hc
  · intro h
    exact h.trans (List.prefix_append x (c :: y))

theorem countOcc_nil_eq (pat : Str) (hp : pat ≠ []) : countOcc pat ([] : Str) = 0 := by
  simp only [countOcc]
  rw [if_neg]
  intro hcon
  exact hp (List.prefix_nil.mp (List.isPrefixOf_iff_prefix.mp hcon))

/-- Occurrence counting splits at a separator character absent from the pattern. -/
theorem countOcc_append_cons (pat x y : Str) (c : Char) (hc : c ∉ pat) (hp : pat ≠ []) :
    countOcc pat (x ++ c :: y) = countOcc pat x + countOcc pat y := by
  induction x with
  | nil =>
    have h1 : pat.isPrefixOf (c :: y) = false := by
      rw [Bool.eq_false_iff]
      intro hcon
      have hpre := List.isPrefixOf_iff_prefix.mp hcon
      cases pat with
      | nil => exact hp rfl
      | cons a l =>
        have ha : a = c := (List.cons_prefix_cons.mp hpre).1
        exact hc (ha ▸ List.mem_cons_self a l)
    calc countOcc pat ([] ++ c :: y)
        = (if pat.isPrefixOf (c :: y) then 1 else 0) + countOcc pat y := by
          simp only [List.nil_append, countOcc]
      _ = 0 + countOcc pat y := by rw [h1]; rfl
      _ = countOcc pat [] + countOcc pat y := by rw [countOcc_nil_eq pat hp]
  | cons a x' ih =>
    have key : pat.isPrefixOf (a :: (x' ++ c :: y)) = pat.isPrefixOf (a :: x') := by
      rw [Bool.eq_iff_iff]
      simp only [List.isPrefixOf_iff_prefix]
      simpa using prefix_append_cons_iff pat (a :: x') y c hc
    calc countOcc pat ((a :: x') ++ c :: y)
        = (if pat.isPrefixOf (a :: (x' ++ c :: y)) then 1 else 0)
            + countOcc pat (x' ++ c :: y) := rfl
      _ = (if pat.isPrefixOf (a :: x') then 1 else 0)
            + (countOcc pat x' + countOcc pat y) := by rw [key, ih]
      _ = countOcc pat (a :: x') + countOcc pat y := by
            show _ = (if pat.isPrefixOf (a :: x') then 1 else 0) + countOcc pat x' + countOcc pat y
            rw [Nat.add_assoc]

/-! ### Lemmas about `trim` -/

theorem dropWhile_head_shape (p : Char → Bool) (l : Str) :
    l.dropWhile p = [] ∨ ∃ a t, l.dropWhile p = a :: t ∧ p a = false := by
  induction l with
  | nil => exact Or.inl rfl
  | cons c t ih =>
    rw [List.dropWhile_cons]
    by_cases h : p c
    · simpa [h] using ih
    · exact Or.inr ⟨c, t, by simp [h], by simpa using h⟩

theorem dropWhile_eq_self_of_head (p : Char → Bool) (l : Str)
    (h : ∀ a t, l = a :: t → p a = false) : l.dropWhile p = l := by
  cases l with
  | nil => rfl
  | cons a t =>
    rw [List.dropWhile_cons, if_neg]
    simp [h a t rfl]

theorem dropWhile_append_eq (p : Char → Bool) (l₁ l₂ : Str) :
    (l₁ ++ l₂).dropWhile p =
      if l₁.dropWhile p = [] then l₂.dropWhile p else l₁.dropWhile p ++ l₂ := by
  induction l₁ with
  | nil => simp
  | cons c t ih =>
    by_cases h : p c
    · simpa [List.dropWhile_cons, h] using ih
    · simp [List.dropWhile_cons, h]

theorem trimLeft_cons_of_ws (c : Char) (s : Str) (h : isWS c = true) :
    trimLeft (c :: s) = trimLeft s := by
  simp [trimLeft, List.dropWhile_cons, h]

theorem trimRight_append_of_ws (s : Str) (c : Char) (h : isWS c = true) :
    trimRight (s ++ [c]) = trimRight s := by
  simp [trimRight, List.dropWhile_cons, h]

theorem trim_wrap (B : Str) : trim ('\n' :: (B ++ ['\n'])) = trim B := by
  unfold trim
  rw [trimLeft_cons_of_ws '\n' (B ++ ['\n']) rfl]
  show trimRight (trimLeft (B ++ ['\n'])) = trimRight (trimLeft B)
  unfold trimLeft
  rw [dropWhile_append_eq]
  by_cases h : B.dropWhile isWS = []
  · rw [if_pos h, h]
    rfl
  · rw [if_neg h]
    exact trimRight_append_of_ws _ '\n' rfl

theorem trimRight_prefix (v : Str) : ∃ w, v = trimRight v ++ w ∧ ∀ c ∈ w, isWS c = true := by
  refine ⟨(v.reverse.takeWhile isWS).reverse, ?_, ?_⟩
  · have h1 : List.takeWhile isWS v.reverse ++ List.dropWhile isWS v.reverse = v.reverse :=
      List.takeWhile_append_dropWhile isWS v.reverse
    have h2 := congrArg List.reverse h1
    rw [List.reverse_append, List.reverse_reverse] at h2
    exact h2.symm
  · intro c hc
    rw [List.mem_reverse] at hc
    exact List.mem_takeWhile_imp hc

theorem trimLeft_suffix (v : Str) : ∃ w, v = w ++ trimLeft v ∧ ∀ c ∈ w, isWS c = true := by
  refine ⟨v.takeWhile isWS, (List.takeWhile_append_dropWhile isWS v).symm, ?_⟩
  intro c hc
  exact List.mem_takeWhile_imp hc

theorem trim_head_not_ws (s : Str) (a : Char) (t : Str) (h : trim s = a :: t) :
    isWS a = false := by
  have h' : trimRight (trimLeft s) = a :: t := h
  rcases trimRight_prefix (trimLeft s) with ⟨w, hw, -⟩
  rcases dropWhile_head_shape isWS s with h1 | ⟨b, u, hb, hbws⟩
  · have h0 : trimLeft s = [] := h1
    rw [h0] at h'
    simp [trimRight] at h'
  · have hv : trimLeft s = b :: u := hb
    rw [hv] at h'
    rw [hv, h'] at hw
    have hba : b = a := by
      have h2 := congrArg List.head? hw
      simpa using h2
    rw [← hba]
    exact hbws

theorem trim_getLast_not_ws (s : Str) (a : Char) (t : Str)
    (h : (trim s).reverse = a :: t) : isWS a = false := by
  unfold trim trimRight at h
  rw [List.reverse_reverse] at h
  rcases dropWhile_head_shape isWS (trimLeft s).reverse with h1 | ⟨b, u, hb, hbws⟩
  · rw [h1] at h; cases h
  · rw [hb] at h
    cases h
    exact hbws

theorem reverse_cases (l : Str) : l = [] ∨ ∃ a t, l.reverse = a :: t := by
  cases hl : l.reverse with
  | nil =>
    left
    have := congrArg List.reverse hl
    simpa using this
  | cons a t => exact Or.inr ⟨a, t, rfl⟩

theorem trimRight_eq_self_of_last (v : Str)
    (h : ∀ a t, v.reverse = a :: t → isWS a = false) : trimRight v = v := by
  unfold trimRight
  rw [dropWhile_eq_self_of_head isWS v.reverse h, List.reverse_reverse]

theorem trim_trim (s : Str) : trim (trim s) = trim s := by
  have h1 : trimLeft (trim s) = trim s := by
    apply dropWhile_eq_self_of_head
    intro a t ht
    exact trim_head_not_ws s a t ht
  show trimRight (trimLeft (trim s)) = trim s
  rw [h1]
  apply trimRight_eq_self_of_last
  intro a t ht
  exact trim_getLast_not_ws s a t ht

theorem trim_eq_self_of_ends (s : Str)
    (hhead : ∀ a t, s = a :: t → isWS a = false)
    (hlast : ∀ a t, s.reverse = a :: t → isWS a = false) : trim s = s := by
  show trimRight (trimLeft s) = s
  have h1 : trimLeft s = s := dropWhile_eq_self_of_head isWS s hhead
  rw [h1]
  exact trimRight_eq_self_of_last s hlast

theorem infix_elim_ws_left (pat : Str) (hne : pat ≠ [])
    (hnw : ∀ c ∈ pat, isWS c = false) :
    ∀ (u t : Str), (∀ c ∈ u, isWS c = true) → pat <:+: u ++ t → pat <:+: t := by
  intro u
  induction u with
  | nil => intro t _ h2; simpa using h2
  | cons c u' ih =>
    intro t hu h2
    rw [List.cons_append, List.infix_cons_iff] at h2
    rcases h2 with h2 | h2
    · cases pat with
      | nil => exact absurd rfl hne
      | cons p0 pr =>
        have hp0 : p0 = c := (List.cons_prefix_cons.mp h2).1
        have hws : isWS p0 = false := hnw p0 (List.mem_cons_self p0 pr)
        rw [hp0] at hws
        rw [hu c (List.mem_cons_self c u')] at hws
        cases hws
    · exact ih t (fun d hd => hu d (List.mem_cons_of_mem c hd)) h2

/-- A non-whitespace pattern that occurs in `s` also occurs in `trim s`. -/
theorem infix_trim_of_infix (pat s : Str) (hne : pat ≠ [])
    (hnw : ∀ c ∈ pat, isWS c = false) (h : pat <:+: s) : pat <:+: trim s := by
  rcases trimLeft_suffix s with ⟨w, hw, hwws⟩
  rw [hw] at h
  have h2 : pat <:+: trimLeft s := infix_elim_ws_left pat hne hnw w (trimLeft s) hwws h
  rcases trimRight_prefix (trimLeft s) with ⟨w2, hw2, hw2ws⟩
  rw [hw2] at h2
  have h3 : pat.reverse <:+: (trimRight (trimLeft s) ++ w2).reverse :=
    List.reverse_infix.mpr h2
  rw [List.reverse_append] at h3
  have h4 : pat.reverse <:+: (trimRight (trimLeft s)).reverse := by
    apply infix_elim_ws_left pat.reverse ?_ ?_ w2.reverse _ ?_ h3
    · simpa using hne
    · intro c hc
      rw [List.mem_reverse] at hc
      exact hnw c hc
    · intro c hc
      rw [List.mem_reverse] at hc
      exact hw2ws c hc
  have h5 : pat <:+: trimRight (trimLeft s) := by
    have h6 := List.reverse_infix.mpr h4
    simpa using h6
  exact h5

/-! ### `deriveSlug` (src/core/scaffold.js) -/

/-- Drop the last `n` characters of a string (JS `slice(0, -n)`). -/
def rdrop (s : Str) (n : Nat) : Str := s.take (s.length - n)

/-- Shallow embedding of `deriveSlug` from `src/core/scaffold.js`:
strip a trailing `.md`/`.mdx` extension, split on the path separator and
re-join with `/`, drop a trailing `/index`, map a bare `index` to the empty
string, and return `'/' ++ slug`.  The path separator is modelled as `/`. -/
def deriveSlug (relativePath : Str) : Str :=
  let stripped :=
    if (strOf ".mdx").isSuffixOf relativePath then rdrop relativePath 4
    else if (strOf ".md").isSuffixOf relativePath then rdrop relativePath 3
    else relativePath
  let slug0 := ['/'].intercalate (stripped.splitOn '/')
  let slug1 := if (strOf "/index").isSuffixOf slug0 then rdrop slug0 6 else slug0
  let slug2 := if slug1 = strOf "index" then [] else slug1
  '/' :: slug2

/-! ### `detectLandingType` (src/core/landing-sync.js) -/

/-- The five landing page types of `LANDING_TYPES`. -/
inductive LandingType where
  | none
  | default
  | config
  | custom
  | sections
  deriving DecidableEq, Repr

/-- The fields of `docsConfig.landing` that `detectLandingType` inspects.
`enabledFalse` models `landing.enabled === false`; `type = Option.none`
models a falsy `landing.type`; `hasSections`, `hasHero`, `hasFeatures`
model truthiness of `landing.sections`, `landing.hero`, `landing.features`. -/
structure LandingConfig where
  enabledFalse : Bool
  type : Option Str
  hasSections : Bool
  hasHero : Bool
  hasFeatures : Bool
  deriving DecidableEq, Repr

/-- Shallow embedding of `detectLandingType` from `src/core/landing-sync.js`.
`hasLandingFolder` models `await pathExists(join(sourcePath, '_landing'))`. -/
def detectLandingType (hasLandingFolder : Bool) (cfg : LandingConfig) : LandingType :=
  if cfg.enabledFalse then LandingType.none
  else if cfg.type = some (strOf "custom") ∨ (hasLandingFolder ∧ cfg.type = Option.none) then
    LandingType.custom
  else if cfg.type = some (strOf "sections") ∧ cfg.hasSections then LandingType.sections
  else if cfg.type = some (strOf "none") then LandingType.none
  else if cfg.hasHero ∨ cfg.hasFeatures then LandingType.config
  else LandingType.default

/-- C8: for every relative path, `deriveSlug` returns a string beginning with
`/`; in particular `deriveSlug "index.md" = "/"`,
`deriveSlug "a/index.mdx" = "/a"`, and `deriveSlug "a/b.md" = "/a/b"`. -/
theorem c8_deriveSlug_spec :
    (∀ p : Str, (deriveSlug p).head? = some '/') ∧
    deriveSlug (strOf "index.md") = strOf "/" ∧
    deriveSlug (strOf "a/index.mdx") = strOf "/a" ∧
    deriveSlug (strOf "a/b.md") = strOf "/a/b" := by
  refine ⟨fun p => rfl, by decide, by decide, by decide⟩

/-- C3: `detectLandingType` resolves exactly one landing type per call by
strict priority: `enabled === false` yields `none` even when the `_landing/`
folder exists and `hero` is set; `type === 'custom'` yields `custom` even
without a `_landing/` folder; a present `_landing/` folder with no explicit
type yields `custom`; then `type === 'sections'` with sections present yields
`sections`; then `type === 'none'` yields `none`; then a present `hero` or
`features` yields `config`; otherwise `default`. -/
theorem c3_detectLandingType_priority :
    ∀ (hasFolder : Bool) (cfg : LandingConfig),
      (cfg.enabledFalse = true → detectLandingType hasFolder cfg = LandingType.none) ∧
      (cfg.enabledFalse = false → cfg.type = some (strOf "custom") →
        detectLandingType hasFolder cfg = LandingType.custom) ∧
      (cfg.enabledFalse = false → hasFolder = true → cfg.type = Option.none →
        detectLandingType hasFolder cfg = LandingType.custom) ∧
      (cfg.enabledFalse = false → cfg.type = some (strOf "sections") →
        cfg.hasSections = true →
        detectLandingType hasFolder cfg = LandingType.sections) ∧
      (cfg.enabledFalse = false → cfg.type = some (strOf "none") →
        detectLandingType hasFolder cfg = LandingType.none) ∧
      (cfg.enabledFalse = false → cfg.type ≠ some (strOf "custom") →
        ¬(hasFolder = true ∧ cfg.type = Option.none) →
        cfg.type ≠ some (strOf "none") →
        (cfg.hasHero = true ∨ cfg.hasFeatures = true) →
        ¬(cfg.type = some (strOf "sections") ∧ cfg.hasSections = true) →
        detectLandingType hasFolder cfg = LandingType.config) ∧
      (cfg.enabledFalse = false → cfg.type ≠ some (strOf "custom") →
        ¬(hasFolder = true ∧ cfg.type = Option.none) →
        cfg.type ≠ some (strOf "none") →
        cfg.hasHero = false → cfg.hasFeatures = false →
        ¬(cfg.type = some (strOf "sections") ∧ cfg.hasSections = true) →
        detectLandingType hasFolder cfg = LandingType.default) := by
  intro hasFolder cfg
  have hcs : strOf "custom" ≠ strOf "sections" := by decide
  have hcn : strOf "custom" ≠ strOf "none" := by decide
  have hsn : strOf "sections" ≠ strOf "none" := by decide
  have hsc : (strOf "sections" = strOf "custom") = False := by decide
  have hns : (strOf "none" = strOf "sections") = False := by decide
  have hnc : (strOf "none" = strOf "custom") = False := by decide
  refine ⟨?_, ?_, ?_, ?_, ?_, ?_, ?_⟩
  · intro hE
    simp [detectLandingType, hE]
  · intro hE hT
    simp [detectLandingType, hE, hT]
  · intro hE hF hT
    simp [detectLandingType, hE, hF, hT]
  · intro hE hT hS
    have h1 : ¬(cfg.type = some (strOf "custom") ∨ (hasFolder = true ∧ cfg.type = Option.none)) := by
      rw [hT]
      rintro (h | ⟨-, h⟩)
      · exact hcs.symm (Option.some.inj h)
      · cases h
    simp [detectLandingType, hE, h1, hT, hS, hsc]
  · intro hE hT
    have h1 : ¬(cfg.type = some (strOf "custom") ∨ (hasFolder = true ∧ cfg.type = Option.none)) := by
      rw [hT]
      rintro (h | ⟨-, h⟩)
      · exact hcn.symm (Option.some.inj h)
      · cases h
    have h2 : ¬(cfg.type = some (strOf "sections") ∧ cfg.hasSections = true) := by
      rw [hT]
      rintro ⟨h, -⟩
      exact hsn.symm (Option.some.inj h)
    simp [detectLandingType, hE, h1, h2, hT, hns, hnc]
  · intro hE h1 h2 h3 h4 h5
    have hc : ¬(cfg.type = some (strOf "custom") ∨ (hasFolder = true ∧ cfg.type = Option.none)) := by
      rintro (h | h)
      · exact h1 h
      · exact h2 h
    simp [detectLandingType, hE, hc, h5, h3, h4]
  · intro hE h1 h2 h3 h4 h5 h6
    have hc : ¬(cfg.type = some (strOf "custom") ∨ (hasFolder = true ∧ cfg.type = Option.none)) := by
      rintro (h | h)
      · exact h1 h
      · exact h2 h
    simp [detectLandingType, hE, hc, h6, h3, h4, h5]

/-- Witness for C3 at concrete configurations: `{enabled:false}` with a
landing folder and a hero still yields `none`, and `{type:'custom'}` with no
folder yields `custom`. -/
theorem c3_detectLandingType_priority_witness :
    (LandingConfig.mk true Option.none false true false).enabledFalse = true ∧
    detectLandingType true (LandingConfig.mk true Option.none false true false) =
      LandingType.none ∧
    detectLandingType false
      (LandingConfig.mk false (some (strOf "custom")) false false false) =
      LandingType.custom :=
  ⟨rfl,
   (c3_detectLandingType_priority true (LandingConfig.mk true Option.none false true false)).1 rfl,
   (c3_detectLandingType_priority false
     (LandingConfig.mk false (some (strOf "custom")) false false false)).2.1 rfl rfl⟩

/-! ### CSS `@import` insertion (`syncUserAssets`, src/core/sync.js) -/

/-- The literal import line inserted into `global.css`. -/
def customImport : Str := strOf "@import \"./custom.css\";"

/-- The comment line inserted above the import. -/
def cssComment : Str := strOf "/* User custom styles */"

/-- The scan of `syncUserAssets` that finds where to insert the import:
index after a `@charset` line, skipping blank and comment lines; `0` when a
real rule is hit first or the file ends. -/
def charsetScanAux : List Str → Nat → Nat
  | [], _ => 0
  | l :: rest, i =>
    let t := trim l
    if (strOf "@charset").isPrefixOf t then i + 1
    else if t ≠ [] ∧ ¬ (strOf "/*").isPrefixOf t ∧ ¬ (strOf "*").isPrefixOf t ∧
        ¬ (strOf "//").isPrefixOf t then 0
    else charsetScanAux rest (i + 1)

def charsetScan (lines : List Str) : Nat := charsetScanAux lines 0

/-- `lines.splice(i, 0, items)`. -/
def spliceAt (lines : List Str) (i : Nat) (items : List Str) : List Str :=
  lines.take i ++ items ++ lines.drop i

/-- Shallow embedding of the `global.css` update in `syncUserAssets`
(src/core/sync.js, lines 320–352): when `custom.css` and `global.css` both
exist and `global.css` does not already contain the import line, split into
lines, find the position after a leading `@charset`, and splice in a comment
line, the import line and a blank line. -/
def syncUserAssetsGlobalCss (globalCss : Str) : Str :=
  if includes customImport globalCss then globalCss
  else
    let lines := globalCss.splitOn '\n'
    let idx := charsetScan lines
    ['\n'].intercalate (spliceAt lines idx [cssComment, customImport, []])

/-- Each member of a line list is an infix of the joined string. -/
theorem mem_infix_intercalate (sep : Str) (ls : List Str) (l : Str) (h : l ∈ ls) :
    l <:+: sep.intercalate ls := by
  induction ls with
  | nil => cases h
  | cons a t ih =>
    cases t with
    | nil =>
      rcases List.mem_singleton.mp h with rfl
      simp [List.intercalate]
    | cons b t2 =>
      have hcc : sep.intercalate (a :: b :: t2) = a ++ (sep ++ sep.intercalate (b :: t2)) := by
        simp [List.intercalate, List.intersperse]
      rw [hcc]
      rcases List.mem_cons.mp h with rfl | h2
      · exact (List.prefix_append l (sep ++ sep.intercalate (b :: t2))).isInfix
      · have h3 := ih h2
        have h4 : sep.intercalate (b :: t2) <:+ a ++ (sep ++ sep.intercalate (b :: t2)) := by
          have h5 := List.suffix_append (a ++ sep) (sep.intercalate (b :: t2))
          rwa [List.append_assoc] at h5
        exact h3.trans h4.isInfix

/-- C6 amended: inserting into a `global.css` that begins with a `@charset`
line and lacks the import produces `@charset` line, then the comment line,
then the import line, then a blank line, then the original remainder (so
the import comes after `@charset` — with the comment line between them — and
before all pre-existing rules); and the operation is idempotent for every
input because presence is checked by substring match. -/
theorem c6_globalCss_insert_after_charset :
    (∀ (first : Str) (rest : List Str),
      (strOf "@charset").isPrefixOf (trim first) = true →
      (∀ l ∈ first :: rest, '\n' ∉ l) →
      includes customImport (['\n'].intercalate (first :: rest)) = false →
      syncUserAssetsGlobalCss (['\n'].intercalate (first :: rest)) =
        ['\n'].intercalate (first :: cssComment :: customImport :: [] :: rest)) ∧
    (∀ g : Str, syncUserAssetsGlobalCss (syncUserAssetsGlobalCss g) =
      syncUserAssetsGlobalCss g) := by
  constructor
  · intro first rest hcs hnl hninc
    unfold syncUserAssetsGlobalCss
    rw [hninc]
    simp only [Bool.false_eq_true, if_false]
    have hsplit : (['\n'].intercalate (first :: rest)).splitOn '\n' = first :: rest :=
      List.splitOn_intercalate (first :: rest) '\n' hnl (by simp)
    rw [hsplit]
    have hscan : charsetScan (first :: rest) = 1 := by
      unfold charsetScan charsetScanAux
      simp [hcs]
    rw [hscan]
    unfold spliceAt
    simp
  · intro g
    have hfix : ∀ x : Str, includes customImport x = true → syncUserAssetsGlobalCss x = x := by
      intro x hx
      unfold syncUserAssetsGlobalCss
      rw [hx]
      simp
    by_cases h : includes customImport g = true
    · rw [hfix g h, hfix g h]
    · have h2 : includes customImport (syncUserAssetsGlobalCss g) = true := by
        unfold syncUserAssetsGlobalCss
        rw [Bool.not_eq_true] at h
        rw [h]
        simp only [Bool.false_eq_true, if_false]
        rw [includes_true_iff]
        apply mem_infix_intercalate
        unfold spliceAt
        refine List.mem_append.mpr (Or.inl ?_)
        refine List.mem_append.mpr (Or.inr ?_)
        simp
      exact hfix _ h2

/-- Witness for C6 on a concrete stylesheet beginning with `@charset`. -/
theorem c6_globalCss_insert_after_charset_witness :
    syncUserAssetsGlobalCss (strOf "@charset \"UTF-8\";\nbody { color: red; }") =
      strOf "@charset \"UTF-8\";\n/* User custom styles */\n@import \"./custom.css\";\n\nbody { color: red; }" := by
  have h := c6_globalCss_insert_after_charset.1
    (strOf "@charset \"UTF-8\";") [strOf "body { color: red; }"]
    (by decide) (by decide) (by decide)
  have he : ['\n'].intercalate
      (strOf "@charset \"UTF-8\";" :: [strOf "body { color: red; }"]) =
      strOf "@charset \"UTF-8\";\nbody { color: red; }" := by decide
  rw [he] at h
  rw [h]
  decide

/-- C6 counterexample: the inserted `@import` line does not appear
immediately after the `@charset` line — the line immediately after it is the
`/* User custom styles */` comment, and the import line comes one line
later. -/
theorem c6_import_line_not_immediately_after_charset :
    (((syncUserAssetsGlobalCss
        (strOf "@charset \"UTF-8\";\nbody { color: red; }")).splitOn '\n').get? 1 ≠
      some customImport) ∧
    (((syncUserAssetsGlobalCss
        (strOf "@charset \"UTF-8\";\nbody { color: red; }")).splitOn '\n').get? 2 =
      some customImport) := by
  constructor
  · decide
  · decide

/-! ### `syncDocs` folder detection and copy filters (src/core/sync.js) -/

/-- Known locale codes (ISO 639-1), `KNOWN_LOCALES` in src/core/sync.js. -/
def KNOWN_LOCALES : List Str :=
  [strOf "en", strOf "es", strOf "fr", strOf "de", strOf "it", strOf "pt",
   strOf "ru", strOf "zh", strOf "ja", strOf "ko",
   strOf "ar", strOf "hi", strOf "bn", strOf "pa", strOf "id", strOf "ms",
   strOf "th", strOf "vi", strOf "tr", strOf "pl",
   strOf "nl", strOf "sv", strOf "da", strOf "no", strOf "fi", strOf "cs",
   strOf "sk", strOf "hu", strOf "ro", strOf "bg",
   strOf "uk", strOf "he", strOf "fa", strOf "ur", strOf "ta", strOf "te",
   strOf "mr", strOf "gu", strOf "kn", strOf "ml"]

/-- Special folders that are not content, `SPECIAL_FOLDERS` in src/core/sync.js. -/
def SPECIAL_FOLDERS : List Str :=
  [strOf "_assets", strOf "_css", strOf "_images", strOf "_static",
   strOf "_landing", strOf "_navbar", strOf "_footer", strOf "public"]

/-- A directory entry as returned by `readdir(..., { withFileTypes: true })`. -/
structure DirEntry where
  name : Str
  isDir : Bool
  deriving DecidableEq, Repr

/-- `String.prototype.toLowerCase` (per character). -/
def lowerStr (s : Str) : Str := s.map Char.toLower

/-- Shallow embedding of `detectLocaleFolders` from src/core/sync.js: keep
top-level directories whose lowercased name is a known locale or a
configured locale. -/
def detectLocaleFolders (entries : List DirEntry) (configuredLocales : List Str) :
    List Str :=
  (entries.filter (fun e =>
    e.isDir && (KNOWN_LOCALES.contains (lowerStr e.name)
      || configuredLocales.contains (lowerStr e.name)))).map DirEntry.name

/-- One element of `versioning.versions` (only the `path` field is used). -/
structure VersionEntry where
  path : Str
  deriving DecidableEq, Repr

/-- The `versioning` section of docs-config.json. -/
structure VersioningConfig where
  enabled : Bool
  versions : List VersionEntry
  deriving DecidableEq, Repr

/-- Shallow embedding of `detectVersionFolders` from src/core/sync.js. -/
def detectVersionFolders (entries : List DirEntry) (vc : VersioningConfig) : List Str :=
  if ¬ vc.enabled ∨ vc.versions = [] then []
  else
    (entries.filter (fun e =>
      e.isDir && (vc.versions.map VersionEntry.path).contains e.name)).map DirEntry.name

/-- Relative path string of a segment list (POSIX separator). -/
def relStrOf (segs : List Str) : Str := ['/'].intercalate segs

/-- Absolute path string of a path given by root string and segment list. -/
def absStr (root : Str) (segs : List Str) : Str :=
  match segs with
  | [] => root
  | _ :: _ => root ++ '/' :: relStrOf segs

/-- Shallow embedding of the root-copy filter of `syncDocs`
(src/core/sync.js, lines 149–170).  `src` is the absolute source path of the
visited item, `relativePath` its path relative to the docs folder. -/
def rootCopyFilter (sourceAbs : Str) (excludeFolders : List Str) (segs : List Str) :
    Bool :=
  let relativePath := relStrOf segs
  let firstSegment := (relativePath.splitOn '/').headD []
  if SPECIAL_FOLDERS.any (fun folder => folder.isPrefixOf relativePath) then false
  else if excludeFolders.contains firstSegment then false
  else if relativePath = strOf "docs-config.json" ∨ relativePath = strOf "vercel.json" then
    false
  else
    let src := absStr sourceAbs segs
    (strOf ".md").isSuffixOf src || (strOf ".mdx").isSuffixOf src || !(src.contains '.')

/-- Shallow embedding of the version/locale pass filter of `syncDocs`
(src/core/sync.js, lines 181–184 and 201–204): only markdown/mdx files and
paths without a dot are copied.  `passRoot` is the absolute path of the
locale or version folder being copied. -/
def subCopyFilter (passRoot : Str) (segs : List Str) : Bool :=
  let src := absStr passRoot segs
  (strOf ".md").isSuffixOf src || (strOf ".mdx").isSuffixOf src || !(src.contains '.')

/-- `fs-extra` `copy` semantics with a filter: an item is copied iff the
filter accepts it and all of its ancestors up to and including the copy
root. -/
def copiedBy (filter : List Str → Bool) (segs : List Str) : Bool :=
  (List.range (segs.length + 1)).all (fun k => filter (segs.take k))

/-- The sync-relevant state of one `syncDocs` call. -/
structure SyncConfig where
  sourceAbs : Str
  entries : List DirEntry
  configuredLocales : List Str
  versioning : VersioningConfig

def localeFoldersOf (sc : SyncConfig) : List Str :=
  detectLocaleFolders sc.entries sc.configuredLocales

def versionFoldersOf (sc : SyncConfig) : List Str :=
  detectVersionFolders sc.entries sc.versioning

/-- `excludeFolders = [...localeFolders, ...versionFolders]`. -/
def excludeFoldersOf (sc : SyncConfig) : List Str :=
  localeFoldersOf sc ++ versionFoldersOf sc

/-- Whether the root copy pass of `syncDocs` copies the source item at
`segs` (relative to the docs folder). -/
def rootPassCopies (sc : SyncConfig) (segs : List Str) : Bool :=
  copiedBy (rootCopyFilter sc.sourceAbs (excludeFoldersOf sc)) segs

/-- Whether the version pass for folder `v` copies the source item at
`segs` (relative to the docs folder). -/
def versionPassCopies (sc : SyncConfig) (v : Str) (segs : List Str) : Bool :=
  (versionFoldersOf sc).contains v &&
    match segs with
    | s :: rest => s == v && copiedBy (subCopyFilter (absStr sc.sourceAbs [v])) rest
    | [] => false

/-- Whether the locale pass for folder `l` copies the source item at
`segs` (relative to the docs folder). -/
def localePassCopies (sc : SyncConfig) (l : Str) (segs : List Str) : Bool :=
  (localeFoldersOf sc).contains l &&
    match segs with
    | s :: rest => s == l && copiedBy (subCopyFilter (absStr sc.sourceAbs [l])) rest
    | [] => false

theorem copiedBy_iff (f : List Str → Bool) (segs : List Str) :
    copiedBy f segs = true ↔ ∀ k, k ≤ segs.length → f (segs.take k) = true := by
  unfold copiedBy
  rw [List.all_eq_true]
  constructor
  · intro h k hk
    exact h k (List.mem_range.mpr (by omega))
  · intro h k hk
    have hk2 := List.mem_range.mp hk
    exact h k (by omega)

theorem copiedBy_eq_false (f : List Str → Bool) (segs : List Str) (k : Nat)
    (hk : k ≤ segs.length) (hf : f (segs.take k) = false) : copiedBy f segs = false := by
  rw [Bool.eq_false_iff]
  intro hcon
  rw [copiedBy_iff] at hcon
  rw [hcon k hk] at hf
  cases hf

theorem mem_detectLocaleFolders_iff (entries : List DirEntry) (cfg : List Str)
    (name : Str) :
    name ∈ detectLocaleFolders entries cfg ↔
      ∃ e ∈ entries, e.name = name ∧ e.isDir = true ∧
        (lowerStr name ∈ KNOWN_LOCALES ∨ lowerStr name ∈ cfg) := by
  unfold detectLocaleFolders
  rw [List.mem_map]
  constructor
  · rintro ⟨e, he, rfl⟩
    rcases List.mem_filter.mp he with ⟨he2, hpred⟩
    rw [Bool.and_eq_true] at hpred
    rcases hpred with ⟨hdir, hor⟩
    refine ⟨e, he2, rfl, hdir, ?_⟩
    rw [Bool.or_eq_true] at hor
    rcases hor with h | h
    · exact Or.inl (List.elem_iff.mp h)
    · exact Or.inr (List.elem_iff.mp h)
  · rintro ⟨e, he, rfl, hdir, hor⟩
    refine ⟨e, List.mem_filter.mpr ⟨he, ?_⟩, rfl⟩
    rw [Bool.and_eq_true]
    refine ⟨hdir, ?_⟩
    rw [Bool.or_eq_true]
    rcases hor with h | h
    · exact Or.inl (List.elem_iff.mpr h)
    · exact Or.inr (List.elem_iff.mpr h)

theorem mem_detectVersionFolders_iff (entries : List DirEntry) (vc : VersioningConfig)
    (name : Str) :
    name ∈ detectVersionFolders entries vc ↔
      vc.enabled = true ∧ vc.versions ≠ [] ∧
        ∃ e ∈ entries, e.name = name ∧ e.isDir = true ∧
          name ∈ vc.versions.map VersionEntry.path := by
  unfold detectVersionFolders
  by_cases hg : ¬ vc.enabled ∨ vc.versions = []
  · rw [if_pos hg]
    simp only [List.not_mem_nil, false_iff]
    rintro ⟨h1, h2, -⟩
    rcases hg with hg | hg
    · rw [h1] at hg; exact hg rfl
    · exact h2 hg
  · rw [if_neg hg]
    push_neg at hg
    rw [List.mem_map]
    constructor
    · rintro ⟨e, he, rfl⟩
      rcases List.mem_filter.mp he with ⟨he2, hpred⟩
      rw [Bool.and_eq_true] at hpred
      rcases hpred with ⟨hdir, hmem⟩
      exact ⟨by simpa using hg.1, hg.2, e, he2, rfl, hdir, List.elem_iff.mp hmem⟩
    · rintro ⟨-, -, e, he, rfl, hdir, hmem⟩
      refine ⟨e, List.mem_filter.mpr ⟨he, ?_⟩, rfl⟩
      rw [Bool.and_eq_true]
      exact ⟨hdir, List.elem_iff.mpr hmem⟩

theorem splitOn_eq_single (c : Char) (l : Str) (h : c ∉ l) : l.splitOn c = [l] := by
  unfold List.splitOn
  apply List.splitOnP_eq_single
  intro x hx
  simp only [beq_iff_eq]
  intro hcon
  exact h (hcon ▸ hx)

theorem relStrOf_single (name : Str) : relStrOf [name] = name := by
  simp [relStrOf, List.intercalate, List.intersperse]

/-- The root filter rejects any top-level item whose name is one of the
detected exclude folders (assuming the name contains no separator). -/
theorem rootCopyFilter_exclude (sourceAbs : Str) (excl : List Str) (name : Str)
    (hsep : '/' ∉ name) (hmem : name ∈ excl) :
    rootCopyFilter sourceAbs excl [name] = false := by
  unfold rootCopyFilter
  rw [relStrOf_single]
  by_cases hspec : SPECIAL_FOLDERS.any (fun folder => folder.isPrefixOf name) = true
  · rw [if_pos hspec]
  · rw [if_neg hspec, if_pos]
    rw [splitOn_eq_single '/' name hsep]
    simp only [List.headD_cons]
    exact List.elem_iff.mpr hmem

/-- C2 counterexample: a top-level folder `de` that is both a known locale
and a configured version path is copied by the version pass and by the
locale pass — the same file is synced by two passes. -/
theorem c2_file_copied_by_two_passes :
    let sc : SyncConfig :=
      { sourceAbs := strOf "/docs",
        entries := [⟨strOf "de", true⟩],
        configuredLocales := [strOf "en"],
        versioning := ⟨true, [⟨strOf "de"⟩]⟩ }
    versionPassCopies sc (strOf "de") [strOf "de", strOf "guide.md"] = true ∧
    localePassCopies sc (strOf "de") [strOf "de", strOf "guide.md"] = true ∧
    rootPassCopies sc [strOf "de", strOf "guide.md"] = false := by
  refine ⟨by decide, by decide, by decide⟩

/-- C2 amended: provided no detected locale folder is also a detected
version folder, every source file is copied by at most one pass: an item
whose top-level folder is a detected locale or version folder is excluded
from the root copy and handled only by that folder's dedicated pass, and no
item is copied by two different passes. -/
theorem c2_sync_passes_disjoint (sc : SyncConfig)
    (hnames : ∀ e ∈ sc.entries, '/' ∉ e.name)
    (hdisj : ∀ x, x ∈ localeFoldersOf sc → x ∉ versionFoldersOf sc) :
    ∀ segs : List Str,
      (∀ v, versionPassCopies sc v segs = true → rootPassCopies sc segs = false) ∧
      (∀ l, localePassCopies sc l segs = true → rootPassCopies sc segs = false) ∧
      (∀ v l, versionPassCopies sc v segs = true →
        localePassCopies sc l segs = true → False) ∧
      (∀ v v', versionPassCopies sc v segs = true →
        versionPassCopies sc v' segs = true → v = v') ∧
      (∀ l l', localePassCopies sc l segs = true →
        localePassCopies sc l' segs = true → l = l') := by
  intro segs
  have hvshape : ∀ v, versionPassCopies sc v segs = true →
      v ∈ versionFoldersOf sc ∧ ∃ rest, segs = v :: rest := by
    intro v h
    unfold versionPassCopies at h
    rw [Bool.and_eq_true] at h
    rcases h with ⟨hmem, hrest⟩
    cases segs with
    | nil => cases hrest
    | cons s rest =>
      rw [Bool.and_eq_true] at hrest
      rcases hrest with ⟨hsv, -⟩
      have : s = v := by simpa using hsv
      exact ⟨List.elem_iff.mp hmem, rest, by rw [this]⟩
  have hlshape : ∀ l, localePassCopies sc l segs = true →
      l ∈ localeFoldersOf sc ∧ ∃ rest, segs = l :: rest := by
    intro l h
    unfold localePassCopies at h
    rw [Bool.and_eq_true] at h
    rcases h with ⟨hmem, hrest⟩
    cases segs with
    | nil => cases hrest
    | cons s rest =>
      rw [Bool.and_eq_true] at hrest
      rcases hrest with ⟨hsl, -⟩
      have : s = l := by simpa using hsl
      exact ⟨List.elem_iff.mp hmem, rest, by rw [this]⟩
  have hname_of_excl : ∀ x, x ∈ excludeFoldersOf sc → '/' ∉ x := by
    intro x hx
    rcases List.mem_append.mp hx with hx | hx
    · rcases (mem_detectLocaleFolders_iff _ _ _).mp hx with ⟨e, he, rfl, -, -⟩
      exact hnames e he
    · rcases (mem_detectVersionFolders_iff _ _ _).mp hx with ⟨-, -, e, he, rfl, -, -⟩
      exact hnames e he
  have hroot_excl : ∀ x rest, x ∈ excludeFoldersOf sc →
      rootPassCopies sc (x :: rest) = false := by
    intro x rest hx
    unfold rootPassCopies
    apply copiedBy_eq_false _ _ 1 (by simp)
    have h1 : (x :: rest).take 1 = [x] := by simp
    rw [h1]
    exact rootCopyFilter_exclude _ _ x (hname_of_excl x hx) hx
  refine ⟨?_, ?_, ?_, ?_, ?_⟩
  · intro v h
    rcases hvshape v h with ⟨hmem, rest, rfl⟩
    exact hroot_excl v rest (List.mem_append.mpr (Or.inr hmem))
  · intro l h
    rcases hlshape l h with ⟨hmem, rest, rfl⟩
    exact hroot_excl l rest (List.mem_append.mpr (Or.inl hmem))
  · intro v l hv hl
    rcases hvshape v hv with ⟨hvm, rest, hseq⟩
    rcases hlshape l hl with ⟨hlm, rest2, hseq2⟩
    rw [hseq] at hseq2
    have : v = l := (List.cons.injEq _ _ _ _ ▸ hseq2).1
    exact hdisj l hlm (this ▸ hvm)
  · intro v v' hv hv'
    rcases hvshape v hv with ⟨-, rest, hseq⟩
    rcases hvshape v' hv' with ⟨-, rest2, hseq2⟩
    rw [hseq] at hseq2
    exact (List.cons.injEq _ _ _ _ ▸ hseq2).1
  · intro l l' hl hl'
    rcases hlshape l hl with ⟨-, rest, hseq⟩
    rcases hlshape l' hl' with ⟨-, rest2, hseq2⟩
    rw [hseq] at hseq2
    exact (List.cons.injEq _ _ _ _ ▸ hseq2).1

/-- Witness for C2 (amended) on a concrete configuration with disjoint
locale and version folders. -/
theorem c2_sync_passes_disjoint_witness :
    rootPassCopies
      { sourceAbs := strOf "/docs",
        entries := [⟨strOf "es", true⟩, ⟨strOf "v1", true⟩],
        configuredLocales := [strOf "en"],
        versioning := ⟨true, [⟨strOf "v1"⟩]⟩ }
      [strOf "es", strOf "guide.md"] = false :=
  (c2_sync_passes_disjoint
    { sourceAbs := strOf "/docs",
      entries := [⟨strOf "es", true⟩, ⟨strOf "v1", true⟩],
      configuredLocales := [strOf "en"],
      versioning := ⟨true, [⟨strOf "v1"⟩]⟩ }
    (by decide) (by decide)
    [strOf "es", strOf "guide.md"]).2.1 (strOf "es") (by decide)

/-- C7 counterexample: a top-level directory named `public` matches neither
the locale detection nor the version detection, yet it is not treated as
ordinary content copied at the root — the root filter excludes it as a
special folder. -/
theorem c7_public_neither_but_not_copied :
    let sc : SyncConfig :=
      { sourceAbs := strOf "/docs",
        entries := [⟨strOf "public", true⟩],
        configuredLocales := [strOf "en"],
        versioning := ⟨false, []⟩ }
    localeFoldersOf sc = [] ∧ versionFoldersOf sc = [] ∧
    rootPassCopies sc [strOf "public"] = false := by
  refine ⟨by decide, by decide, by decide⟩

/-- C7 amended: a top-level directory is detected as a locale folder iff its
lowercased name is in the fixed known-locale list or in the configured
`i18n.locales`; it is detected as a version folder iff versioning is enabled
and some configured version `path` equals its name; and a top-level
directory matching neither — provided it is additionally not excluded as a
special folder, not a config file name, and passes the markdown/no-dot
filter — is copied at the root. -/
theorem c7_locale_version_detection :
    (∀ (entries : List DirEntry) (cfg : List Str) (name : Str),
      name ∈ detectLocaleFolders entries cfg ↔
        ∃ e ∈ entries, e.name = name ∧ e.isDir = true ∧
          (lowerStr name ∈ KNOWN_LOCALES ∨ lowerStr name ∈ cfg)) ∧
    (∀ (entries : List DirEntry) (vc : VersioningConfig) (name : Str),
      name ∈ detectVersionFolders entries vc ↔
        vc.enabled = true ∧ vc.versions ≠ [] ∧
          ∃ e ∈ entries, e.name = name ∧ e.isDir = true ∧
            name ∈ vc.versions.map VersionEntry.path) ∧
    (∀ (sc : SyncConfig) (name : Str),
      (∀ e ∈ sc.entries, e.name ≠ []) →
      '/' ∉ name →
      name ∉ localeFoldersOf sc →
      name ∉ versionFoldersOf sc →
      (∀ f ∈ SPECIAL_FOLDERS, ¬ f <+: name) →
      name ≠ strOf "docs-config.json" →
      name ≠ strOf "vercel.json" →
      name.contains '.' = false →
      sc.sourceAbs.contains '.' = false →
      rootPassCopies sc [name] = true) := by
  refine ⟨mem_detectLocaleFolders_iff, mem_detectVersionFolders_iff, ?_⟩
  intro sc name hne hsep hloc hver hspec hcfg1 hcfg2 hdot hsrc
  have hexcl_nil : ([] : Str) ∉ excludeFoldersOf sc := by
    intro hmem
    rcases List.mem_append.mp hmem with h | h
    · rcases (mem_detectLocaleFolders_iff _ _ _).mp h with ⟨e, he, hname, -, -⟩
      exact hne e he hname
    · rcases (mem_detectVersionFolders_iff _ _ _).mp h with ⟨-, -, e, he, hname, -, -⟩
      exact hne e he hname
  unfold rootPassCopies
  rw [copiedBy_iff]
  intro k hk
  have hk1 : k ≤ 1 := by simpa using hk
  interval_cases k
  · show rootCopyFilter sc.sourceAbs (excludeFoldersOf sc) [] = true
    unfold rootCopyFilter
    have hrel : relStrOf [] = [] := rfl
    rw [hrel]
    rw [if_neg (by decide)]
    rw [if_neg ?hcontains]
    case hcontains =>
      intro hcon
      have h2 : ((([] : Str).splitOn '/').headD []) = ([] : Str) := by decide
      rw [h2] at hcon
      exact hexcl_nil (List.elem_iff.mp hcon)
    rw [if_neg (by decide)]
    show ((strOf ".md").isSuffixOf (absStr sc.sourceAbs []) ||
      (strOf ".mdx").isSuffixOf (absStr sc.sourceAbs []) ||
      !((absStr sc.sourceAbs []).contains '.')) = true
    have habs : absStr sc.sourceAbs [] = sc.sourceAbs := rfl
    rw [habs, hsrc]
    simp
  · show rootCopyFilter sc.sourceAbs (excludeFoldersOf sc) [name] = true
    unfold rootCopyFilter
    rw [relStrOf_single]
    rw [if_neg ?hspecial]
    case hspecial =>
      intro hcon
      rcases List.any_eq_true.mp hcon with ⟨f, hf, hpre⟩
      exact hspec f hf (List.isPrefixOf_iff_prefix.mp hpre)
    rw [if_neg ?hcontains2]
    case hcontains2 =>
      intro hcon
      rw [splitOn_eq_single '/' name hsep] at hcon
      simp only [List.headD_cons] at hcon
      have hmem := List.elem_iff.mp hcon
      rcases List.mem_append.mp hmem with h | h
      · exact hloc h
      · exact hver h
    rw [if_neg ?hconfig]
    case hconfig =>
      rintro (h | h)
      · exact hcfg1 h
      · exact hcfg2 h
    show ((strOf ".md").isSuffixOf (absStr sc.sourceAbs [name]) ||
      (strOf ".mdx").isSuffixOf (absStr sc.sourceAbs [name]) ||
      !((absStr sc.sourceAbs [name]).contains '.')) = true
    have hnodot : (absStr sc.sourceAbs [name]).contains '.' = false := by
      rw [Bool.eq_false_iff]
      intro hcon
      have hmem := List.elem_iff.mp hcon
      unfold absStr at hmem
      rw [relStrOf_single] at hmem
      rcases List.mem_append.mp hmem with h | h
      · have : sc.sourceAbs.contains '.' = true := List.elem_iff.mpr h
        rw [hsrc] at this
        cases this
      · rcases List.mem_cons.mp h with h | h
        · cases h
        · have : name.contains '.' = true := List.elem_iff.mpr h
          rw [hdot] at this
          cases this
    rw [hnodot]
    simp

/-- Witness for C7 (amended) on a concrete directory that matches neither
detection and is copied at the root. -/
theorem c7_locale_version_detection_witness :
    rootPassCopies
      { sourceAbs := strOf "/docs",
        entries := [⟨strOf "guide", true⟩],
        configuredLocales := [strOf "en"],
        versioning := ⟨false, []⟩ }
      [strOf "guide"] = true :=
  c7_locale_version_detection.2.2
    { sourceAbs := strOf "/docs",
      entries := [⟨strOf "guide", true⟩],
      configuredLocales := [strOf "en"],
      versioning := ⟨false, []⟩ }
    (strOf "guide") (by decide) (by decide) (by decide) (by decide) (by decide)
    (by decide) (by decide) (by decide) (by decide)

/-- C9: the root copy pass excludes special folders by string-prefix match
on the relative path, not by exact first-segment equality: every entry whose
relative path merely starts with a special folder name is excluded, for
example a folder `public-api` and a file `_imagesfoo.md`, neither of which
is itself a special folder. -/
theorem c9_root_filter_prefix_exclusion :
    (∀ (sourceAbs : Str) (excl : List Str) (segs : List Str),
      (∃ f ∈ SPECIAL_FOLDERS, f <+: relStrOf segs) →
      rootCopyFilter sourceAbs excl segs = false) ∧
    rootCopyFilter (strOf "/docs") [] [strOf "public-api"] = false ∧
    (strOf "public-api") ∉ SPECIAL_FOLDERS ∧
    rootCopyFilter (strOf "/docs") [] [strOf "_imagesfoo.md"] = false ∧
    (strOf "_imagesfoo.md") ∉ SPECIAL_FOLDERS := by
  refine ⟨?_, by decide, by decide, by decide, by decide⟩
  intro sourceAbs excl segs hex
  rcases hex with ⟨f, hf, hpre⟩
  unfold rootCopyFilter
  rw [if_pos]
  exact List.any_eq_true.mpr ⟨f, hf, List.isPrefixOf_iff_prefix.mpr hpre⟩

/-- Witness for C9 at a concrete top-level entry `publicX` whose relative
path starts with the special folder name `public`. -/
theorem c9_root_filter_prefix_exclusion_witness :
    rootCopyFilter (strOf "/docs") [] [strOf "publicX"] = false :=
  c9_root_filter_prefix_exclusion.1 (strOf "/docs") [] [strOf "publicX"]
    ⟨strOf "public", by decide, by decide⟩

/-- C10: in every copy pass the filter accepts a path that does not end in
`.md`/`.mdx` only if the full source path contains no `.` anywhere; hence a
directory named `v1.0` is rejected and the `.md` files inside it are not
copied, and when the docs root path itself contains a dot nothing is copied
at all. -/
theorem c10_dot_filter_rejects_subtrees :
    (∀ (passRoot : Str) (segs : List Str),
      subCopyFilter passRoot segs = true →
      (strOf ".md").isSuffixOf (absStr passRoot segs) = false →
      (strOf ".mdx").isSuffixOf (absStr passRoot segs) = false →
      (absStr passRoot segs).contains '.' = false) ∧
    (∀ (sourceAbs : Str) (excl : List Str) (segs : List Str),
      rootCopyFilter sourceAbs excl segs = true →
      (strOf ".md").isSuffixOf (absStr sourceAbs segs) = false →
      (strOf ".mdx").isSuffixOf (absStr sourceAbs segs) = false →
      (absStr sourceAbs segs).contains '.' = false) ∧
    ((strOf ".md").isSuffixOf
        (absStr (strOf "/docs") [strOf "v1.0", strOf "guide.md"]) = true ∧
      copiedBy (rootCopyFilter (strOf "/docs") [])
        [strOf "v1.0", strOf "guide.md"] = false ∧
      copiedBy (subCopyFilter (strOf "/docs/v1"))
        [strOf "v1.0", strOf "guide.md"] = false) ∧
    copiedBy (rootCopyFilter (strOf "/my.docs") []) [strOf "guide.md"] = false := by
  refine ⟨?_, ?_, ⟨by decide, by decide, by decide⟩, by decide⟩
  · intro passRoot segs h h1 h2
    simp only [subCopyFilter, h1, h2, Bool.false_or] at h
    simpa using h
  · intro sourceAbs excl segs h h1 h2
    simp only [rootCopyFilter] at h
    split_ifs at h <;>
      first
        | cases h
        | (simp only [h1, h2, Bool.false_or] at h; simpa using h)

/-- Witness for C10 applying the filter lemma at a dotless directory. -/
theorem c10_dot_filter_rejects_subtrees_witness :
    (absStr (strOf "/docs/v1") [strOf "guide"]).contains '.' = false :=
  c10_dot_filter_rejects_subtrees.1 (strOf "/docs/v1") [strOf "guide"]
    (by decide) (by decide) (by decide)

/-! ### `collectMarkdownFiles` (src/core/scaffold.js) -/

/-- A file system subtree (a `readdir` listing with nesting). -/
inductive FsTree where
  | file (name : Str)
  | dir (name : Str) (children : List FsTree)

/-- `EXCLUDED_FOLDERS` from src/core/scaffold.js. -/
def EXCLUDED_FOLDERS : List Str :=
  [strOf "_assets", strOf "_css", strOf "_images", strOf "_static",
   strOf "_landing", strOf "_navbar", strOf "_footer", strOf "public",
   strOf "node_modules"]

/-- `EXCLUDED_FILES` from src/core/scaffold.js. -/
def EXCLUDED_FILES : List Str :=
  [strOf "docs-config.json", strOf "vercel.json", strOf "netlify.toml",
   strOf "README.md"]

/-- `path.extname`: the substring from the last `.` of the basename to the
end, empty when there is no dot or when the only dot is leading. -/
def extname (n : Str) : Str :=
  match n.splitOn '.' with
  | [] => []
  | [_] => []
  | p0 :: p1 :: rest =>
    if p0 = [] ∧ rest = [] then []
    else '.' :: (p1 :: rest).getLastD []

/-- Shallow embedding of the `walk` of `collectMarkdownFiles`
(src/core/scaffold.js, lines 124–152) over a listed subtree: directories are
skipped when their first path segment relative to the root *or their own
name* is an excluded folder; files are kept when they are `.md`/`.mdx` and
not excluded. Returned paths are segment lists relative to the root. -/
def collectMarkdownFiles : List FsTree → List Str → List (List Str)
  | [], _ => []
  | FsTree.file n :: rest, relSoFar =>
    (if EXCLUDED_FILES.contains n then []
     else if lowerStr (extname n) = strOf ".md" ∨ lowerStr (extname n) = strOf ".mdx"
     then [relSoFar ++ [n]] else []) ++ collectMarkdownFiles rest relSoFar
  | FsTree.dir n children :: rest, relSoFar =>
    (if EXCLUDED_FOLDERS.contains ((relSoFar ++ [n]).headD [])
        ∨ EXCLUDED_FOLDERS.contains n then []
     else collectMarkdownFiles children (relSoFar ++ [n]))
      ++ collectMarkdownFiles rest relSoFar

/-- C4 counterexample: a folder named `public` nested below the top level is
also skipped (the walk checks the entry's own name against the exclusion
list, not only the first path segment), so a Markdown file inside it is not
collected. -/
theorem c4_nested_public_excluded :
    collectMarkdownFiles
      [FsTree.dir (strOf "a") [FsTree.dir (strOf "public")
        [FsTree.file (strOf "x.md")]]] [] = [] ∧
    collectMarkdownFiles
      [FsTree.dir (strOf "a") [FsTree.dir (strOf "sub")
        [FsTree.file (strOf "x.md")]]] [] =
      [[strOf "a", strOf "sub", strOf "x.md"]] := by
  constructor
  · simp [collectMarkdownFiles]
    decide
  · simp [collectMarkdownFiles]
    decide

/-- C4 amended: folder exclusion in `collectMarkdownFiles` is checked
against the first path segment *and* against the directory's own basename,
so an excluded folder name is skipped at every depth: no collected path
passes through a directory segment that is an excluded folder name. -/
theorem c4_excluded_folder_skipped_at_any_depth :
    ∀ (ts : List FsTree) (relSoFar p : List Str),
      p ∈ collectMarkdownFiles ts relSoFar →
      ∃ q, p = relSoFar ++ q ∧ q ≠ [] ∧
        ∀ s ∈ q.dropLast, EXCLUDED_FOLDERS.contains s = false := by
  intro ts relSoFar
  induction ts, relSoFar using collectMarkdownFiles.induct with
  | case1 rel =>
    intro p h
    simp only [collectMarkdownFiles] at h
    exact absurd h (List.not_mem_nil p)
  | case2 n rest rel ih =>
    intro p h
    simp only [collectMarkdownFiles] at h
    rcases List.mem_append.mp h with h | h
    · split_ifs at h with h1 h2
      · exact absurd h (List.not_mem_nil p)
      · have hp : p = rel ++ [n] := List.mem_singleton.mp h
        refine ⟨[n], hp, by simp, ?_⟩
        intro s hs
        simp at hs
      · exact absurd h (List.not_mem_nil p)
    · exact ih p h
  | case3 n children rest rel ih1 ih2 =>
    intro p h
    simp only [collectMarkdownFiles] at h
    rcases List.mem_append.mp h with h | h
    · split_ifs at h with h1
      · exact absurd h (List.not_mem_nil p)
      · rcases ih1 p h with ⟨q, hp, hqne, hq⟩
        refine ⟨n :: q, ?_, by simp, ?_⟩
        · rw [hp, List.append_assoc]
          rfl
        · intro s hs
          rw [List.dropLast_cons_of_ne_nil hqne] at hs
          rcases List.mem_cons.mp hs with rfl | hs
          · push_neg at h1
            rw [Bool.eq_false_iff]
            intro hcon
            exact absurd (Or.inr hcon) (by
              rintro (hc | hc)
              · exact h1.1 hc
              · exact h1.2 hc)
          · exact hq s hs
    · exact ih2 p h

/-- Witness for C4 (amended): a concrete collected path never passes
through an excluded directory name. -/
theorem c4_excluded_folder_skipped_at_any_depth_witness :
    ∃ q, [strOf "a", strOf "sub", strOf "x.md"] = ([] : List Str) ++ q ∧ q ≠ [] ∧
      ∀ s ∈ q.dropLast, EXCLUDED_FOLDERS.contains s = false :=
  c4_excluded_folder_skipped_at_any_depth
    [FsTree.dir (strOf "a") [FsTree.dir (strOf "sub") [FsTree.file (strOf "x.md")]]]
    [] [strOf "a", strOf "sub", strOf "x.md"]
    (by
      simp [collectMarkdownFiles]
      decide)

/-! ### Custom landing navbar/footer resolution (src/core/landing-sync.js) -/

/-- `path.basename(n, ext)`: strip `ext` from the end of `n` when it is a
proper suffix. -/
def basenameMinusExt (n e : Str) : Str :=
  if e.isSuffixOf n ∧ n ≠ e then rdrop n e.length else n

/-- The sniffing loop of `syncCustomLanding` (src/core/landing-sync.js,
lines 153–179) restricted to its `navbarHtml`/`footerHtml` outcome: scan the
landing folder listing; an `.html`/`.htm` file whose lowercased basename is
`navbar`/`nav`/`header` becomes the sniffed navbar (unless hidden), one
named `footer` the sniffed footer; later matches overwrite earlier ones. -/
def sniffAux (nh fh : Bool) :
    List DirEntry → Option Str × Option Str → Option Str × Option Str
  | [], acc => acc
  | f :: rest, (nb, ft) =>
    if f.isDir then sniffAux nh fh rest (nb, ft)
    else
      let ext := lowerStr (extname f.name)
      let nm := lowerStr (basenameMinusExt f.name ext)
      if ext = strOf ".html" ∨ ext = strOf ".htm" then
        if nh = false ∧ (nm = strOf "navbar" ∨ nm = strOf "nav" ∨ nm = strOf "header") then
          sniffAux nh fh rest (some f.name, ft)
        else if fh = false ∧ nm = strOf "footer" then
          sniffAux nh fh rest (nb, some f.name)
        else sniffAux nh fh rest (nb, ft)
      else sniffAux nh fh rest (nb, ft)

/-- JavaScript truthiness of a nullable string: `null` (`Option.none`) and
the empty string are falsy. -/
def jsFalsy : Option Str → Bool
  | Option.none => true
  | some s => s.isEmpty

/-- The navbar content resolved by `syncCustomLanding`
(src/core/landing-sync.js, lines 141–198).  `navbarContent` starts as
`__hidden__` when hidden and null otherwise, and is overwritten with the
sniffed file's content when a file was sniffed; then — the JS
`!navbarHidden && !navbarContent` test — the config-declared
`landing.navbar.html` path is consulted when the content so far is still
falsy (null *or empty*), and its content is used when the file exists on
disk.  `readLanding` reads a file of the landing folder, `readDocs` a path
relative to the docs root (`Option.none` = not on disk; a sniffed file is
expected to exist, an `Option.none` read models still-null content). -/
def syncCustomLandingNavbar (files : List DirEntry) (navbarHidden footerHidden : Bool)
    (cfgNavbarHtml : Option Str) (readLanding readDocs : Str → Option Str) :
    Option Str :=
  let nbFile := (sniffAux navbarHidden footerHidden files (Option.none, Option.none)).1
  let content0 : Option Str :=
    if navbarHidden then some (strOf "__hidden__") else Option.none
  let content1 : Option Str :=
    match nbFile with
    | some fn => if navbarHidden = false then readLanding fn else content0
    | Option.none => content0
  if navbarHidden = false ∧ jsFalsy content1 = true then
    match cfgNavbarHtml with
    | some pth =>
      match readDocs pth with
      | some c => some c
      | Option.none => content1
    | Option.none => content1
  else content1

/-- The footer content resolved by `syncCustomLanding` (same structure as
the navbar, with the `footer` sniff, the `!footerContent` truthiness test of
landing-sync.js line 199, and `landing.footer.html`). -/
def syncCustomLandingFooter (files : List DirEntry) (navbarHidden footerHidden : Bool)
    (cfgFooterHtml : Option Str) (readLanding readDocs : Str → Option Str) :
    Option Str :=
  let ftFile := (sniffAux navbarHidden footerHidden files (Option.none, Option.none)).2
  let content0 : Option Str :=
    if footerHidden then some (strOf "__hidden__") else Option.none
  let content1 : Option Str :=
    match ftFile with
    | some fn => if footerHidden = false then readLanding fn else content0
    | Option.none => content0
  if footerHidden = false ∧ jsFalsy content1 = true then
    match cfgFooterHtml with
    | some pth =>
      match readDocs pth with
      | some c => some c
      | Option.none => content1
    | Option.none => content1
  else content1

/-- The navbar content resolved by `syncSectionsLanding`
(src/core/landing-sync.js, lines 255–294): the first of
`navbar.html`/`nav.html`/`header.html` that exists in the landing folder is
read (the loop breaks on existence, even when the content is empty); then —
the JS `!navbarContent` test at line 283 — the config-declared path is
consulted when the content so far is still falsy (null or empty). -/
def syncSectionsLandingNavbar (navbarHidden : Bool) (cfgNavbarHtml : Option Str)
    (readLanding readDocs : Str → Option Str) : Option Str :=
  let content1 : Option Str :=
    if navbarHidden then some (strOf "__hidden__")
    else
      match readLanding (strOf "navbar.html") with
      | some c => some c
      | Option.none =>
        match readLanding (strOf "nav.html") with
        | some c => some c
        | Option.none =>
          match readLanding (strOf "header.html") with
          | some c => some c
          | Option.none => Option.none
  if navbarHidden = false ∧ jsFalsy content1 = true then
    match cfgNavbarHtml with
    | some pth =>
      match readDocs pth with
      | some c => some c
      | Option.none => content1
    | Option.none => content1
  else content1

/-- The footer content resolved by `syncSectionsLanding`: only
`footer.html` is sniffed; the config-declared path is consulted when the
content so far is falsy (the `!footerContent` test at line 289). -/
def syncSectionsLandingFooter (footerHidden : Bool) (cfgFooterHtml : Option Str)
    (readLanding readDocs : Str → Option Str) : Option Str :=
  let content1 : Option Str :=
    if footerHidden then some (strOf "__hidden__")
    else
      match readLanding (strOf "footer.html") with
      | some c => some c
      | Option.none => Option.none
  if footerHidden = false ∧ jsFalsy content1 = true then
    match cfgFooterHtml with
    | some pth =>
      match readDocs pth with
      | some c => some c
      | Option.none => content1
    | Option.none => content1
  else content1

/-- C5 counterexample: when both a sniffed `navbar.html` file and an
existing config-declared `landing.navbar.html` file are present, both
landing syncs use the sniffed file's content, not the config-declared one —
the config path does not take priority. -/
theorem c5_sniffed_beats_config :
    let rl : Str → Option Str := fun n =>
      if n = strOf "navbar.html" then some (strOf "<nav>SNIFFED</nav>") else Option.none
    let rd : Str → Option Str := fun p =>
      if p = strOf "mynav.html" then some (strOf "<nav>CONFIG</nav>") else Option.none
    rd (strOf "mynav.html") = some (strOf "<nav>CONFIG</nav>") ∧
    syncCustomLandingNavbar [⟨strOf "navbar.html", false⟩] false false
        (some (strOf "mynav.html")) rl rd = some (strOf "<nav>SNIFFED</nav>") ∧
    syncSectionsLandingNavbar false (some (strOf "mynav.html")) rl rd =
      some (strOf "<nav>SNIFFED</nav>") := by
  refine ⟨by decide, by decide, by decide⟩

/-- C5 amended: the filename-sniffed navbar/footer file takes priority
whenever its content is truthy (non-empty); the config-declared
`landing.navbar.html` / `landing.footer.html` path is consulted only when
no sniffed file was found *or* the sniffed content is falsy (empty), and
then its content is used when the file exists on disk. -/
theorem c5_config_is_fallback :
    (∀ (files : List DirEntry) (fh : Bool) (pth c : Str)
        (rl rd : Str → Option Str),
      (sniffAux false fh files (Option.none, Option.none)).1 = Option.none →
      rd pth = some c →
      syncCustomLandingNavbar files false fh (some pth) rl rd = some c) ∧
    (∀ (files : List DirEntry) (fh : Bool) (fn c : Str) (cfg : Option Str)
        (rl rd : Str → Option Str),
      (sniffAux false fh files (Option.none, Option.none)).1 = some fn →
      rl fn = some c → c ≠ [] →
      syncCustomLandingNavbar files false fh cfg rl rd = some c) ∧
    (∀ (files : List DirEntry) (fh : Bool) (fn pth c : Str)
        (rl rd : Str → Option Str),
      (sniffAux false fh files (Option.none, Option.none)).1 = some fn →
      rl fn = some [] → rd pth = some c →
      syncCustomLandingNavbar files false fh (some pth) rl rd = some c) ∧
    (∀ (files : List DirEntry) (nh : Bool) (pth c : Str)
        (rl rd : Str → Option Str),
      (sniffAux nh false files (Option.none, Option.none)).2 = Option.none →
      rd pth = some c →
      syncCustomLandingFooter files nh false (some pth) rl rd = some c) ∧
    (∀ (files : List DirEntry) (nh : Bool) (fn c : Str) (cfg : Option Str)
        (rl rd : Str → Option Str),
      (sniffAux nh false files (Option.none, Option.none)).2 = some fn →
      rl fn = some c → c ≠ [] →
      syncCustomLandingFooter files nh false cfg rl rd = some c) ∧
    (∀ (files : List DirEntry) (nh : Bool) (fn pth c : Str)
        (rl rd : Str → Option Str),
      (sniffAux nh false files (Option.none, Option.none)).2 = some fn →
      rl fn = some [] → rd pth = some c →
      syncCustomLandingFooter files nh false (some pth) rl rd = some c) ∧
    (∀ (pth c : Str) (rl rd : Str → Option Str),
      rl (strOf "navbar.html") = Option.none →
      rl (strOf "nav.html") = Option.none →
      rl (strOf "header.html") = Option.none →
      rd pth = some c →
      syncSectionsLandingNavbar false (some pth) rl rd = some c) ∧
    (∀ (c : Str) (cfg : Option Str) (rl rd : Str → Option Str),
      rl (strOf "navbar.html") = some c → c ≠ [] →
      syncSectionsLandingNavbar false cfg rl rd = some c) ∧
    (∀ (pth c : Str) (rl rd : Str → Option Str),
      rl (strOf "navbar.html") = some [] → rd pth = some c →
      syncSectionsLandingNavbar false (some pth) rl rd = some c) ∧
    (∀ (pth c : Str) (rl rd : Str → Option Str),
      rl (strOf "footer.html") = Option.none →
      rd pth = some c →
      syncSectionsLandingFooter false (some pth) rl rd = some c) ∧
    (∀ (c : Str) (cfg : Option Str) (rl rd : Str → Option Str),
      rl (strOf "footer.html") = some c → c ≠ [] →
      syncSectionsLandingFooter false cfg rl rd = some c) ∧
    (∀ (pth c : Str) (rl rd : Str → Option Str),
      rl (strOf "footer.html") = some [] → rd pth = some c →
      syncSectionsLandingFooter false (some pth) rl rd = some c) := by
  refine ⟨?_, ?_, ?_, ?_, ?_, ?_, ?_, ?_, ?_, ?_, ?_, ?_⟩
  · intro files fh pth c rl rd hsniff hrd
    unfold syncCustomLandingNavbar
    rw [hsniff]
    simp [jsFalsy, hrd]
  · intro files fh fn c cfg rl rd hsniff hrl hc
    have hce : c.isEmpty = false := by
      cases c with
      | nil => exact absurd rfl hc
      | cons a t => rfl
    unfold syncCustomLandingNavbar
    rw [hsniff]
    simp [jsFalsy, hrl, hce]
  · intro files fh fn pth c rl rd hsniff hrl hrd
    unfold syncCustomLandingNavbar
    rw [hsniff]
    simp [jsFalsy, hrl, hrd]
  · intro files nh pth c rl rd hsniff hrd
    unfold syncCustomLandingFooter
    rw [hsniff]
    simp [jsFalsy, hrd]
  · intro files nh fn c cfg rl rd hsniff hrl hc
    have hce : c.isEmpty = false := by
      cases c with
      | nil => exact absurd rfl hc
      | cons a t => rfl
    unfold syncCustomLandingFooter
    rw [hsniff]
    simp [jsFalsy, hrl, hce]
  · intro files nh fn pth c rl rd hsniff hrl hrd
    unfold syncCustomLandingFooter
    rw [hsniff]
    simp [jsFalsy, hrl, hrd]
  · intro pth c rl rd h1 h2 h3 hrd
    unfold syncSectionsLandingNavbar
    rw [h1, h2, h3]
    simp [jsFalsy, hrd]
  · intro c cfg rl rd h1 hc
    have hce : c.isEmpty = false := by
      cases c with
      | nil => exact absurd rfl hc
      | cons a t => rfl
    unfold syncSectionsLandingNavbar
    rw [h1]
    simp [jsFalsy, hce]
  · intro pth c rl rd h1 hrd
    unfold syncSectionsLandingNavbar
    rw [h1]
    simp [jsFalsy, hrd]
  · intro pth c rl rd h1 hrd
    unfold syncSectionsLandingFooter
    rw [h1]
    simp [jsFalsy, hrd]
  · intro c cfg rl rd h1 hc
    have hce : c.isEmpty = false := by
      cases c with
      | nil => exact absurd rfl hc
      | cons a t => rfl
    unfold syncSectionsLandingFooter
    rw [h1]
    simp [jsFalsy, hce]
  · intro pth c rl rd h1 hrd
    unfold syncSectionsLandingFooter
    rw [h1]
    simp [jsFalsy, hrd]

/-- Witness for C5 (amended): the config-declared path is used when nothing
is sniffed. -/
theorem c5_config_is_fallback_witness :
    syncCustomLandingNavbar [⟨strOf "hero.html", false⟩] false false
      (some (strOf "mynav.html"))
      (fun _ => Option.none)
      (fun p => if p = strOf "mynav.html" then some (strOf "<nav>CONFIG</nav>")
        else Option.none) = some (strOf "<nav>CONFIG</nav>") :=
  c5_config_is_fallback.1 [⟨strOf "hero.html", false⟩] false
    (strOf "mynav.html") (strOf "<nav>CONFIG</nav>")
    (fun _ => Option.none)
    (fun p => if p = strOf "mynav.html" then some (strOf "<nav>CONFIG</nav>")
      else Option.none)
    (by decide) (by decide)

/-! ### `injectLayoutIntoMarkdown` (src/core/sync.js) -/

def dashes : Str := strOf "---"
def layoutKey : Str := strOf "layout:"
def langKey : Str := strOf "lang:"
def docVersionKey : Str := strOf "docVersion:"
def apiKey : Str := strOf "api:"

/-- `'../'.repeat(n)`-style repetition. -/
def repeatStr (s : Str) : Nat → Str
  | 0 => []
  | n + 1 => s ++ repeatStr s n

/-- Strip a trailing `.md`/`.mdx` (the regex `\.(md|mdx)$`). -/
def stripMdExt (s : Str) : Str :=
  if (strOf ".mdx").isSuffixOf s then rdrop s 4
  else if (strOf ".md").isSuffixOf s then rdrop s 3
  else s

/-- The title derived from the file name: extension stripped, every hyphen
replaced by a space. -/
def titleOf (name : Str) : Str :=
  (stripMdExt name).map (fun c => if c = '-' then ' ' else c)

def langLineOf (loc : Str) : Str := strOf "lang: " ++ loc ++ ['\n']

def versionLineOf (ver : Str) : Str := strOf "docVersion: " ++ ver ++ ['\n']

/-- `if (locale && !frontmatterBlock.includes('lang:')) ...` of
`injectLayoutIntoMarkdown`. -/
def langPrepend (locale : Option Str) (fm : Str) : Str :=
  match locale with
  | some loc => if includes langKey fm then fm else langLineOf loc ++ fm
  | Option.none => fm

/-- `if (version && !frontmatterBlock.includes('docVersion:')) ...` of
`injectLayoutIntoMarkdown`. -/
def versionPrepend (version : Option Str) (fm : Str) : Str :=
  match version with
  | some ver => if includes docVersionKey fm then fm else versionLineOf ver ++ fm
  | Option.none => fm

/-- Reassemble a frontmatter block and body:
`` `---\n${block}\n---${body}` ``. -/
def composeFm (block body : Str) : Str :=
  strOf "---\n" ++ block ++ ['\n'] ++ strOf "---" ++ body

/-- The arguments of one `injectLayoutIntoMarkdown` file rewrite. -/
structure InjectParams where
  locale : Option Str
  version : Option Str
  depth : Nat
  baseLayoutPath : Str
  apiLayoutPath : Str
  fileName : Str

/-- Shallow embedding of the per-file rewrite of `injectLayoutIntoMarkdown`
(src/core/sync.js, lines 383–429): parse the frontmatter block delimited by
`---` markers, prepend `lang:`/`docVersion:` lines when absent, append a
`layout:` line when absent (using the API layout when the block mentions
`api:`), and reassemble; a file without frontmatter gains a minimal block. -/
def injectLayoutIntoMarkdown (p : InjectParams) (content : Str) : Str :=
  let layoutPath := repeatStr (strOf "../") (p.depth + 1) ++ p.baseLayoutPath
  if dashes.isPrefixOf content then
    match jsIndexOf dashes content 3 with
    | some e =>
      let fmBlock := trim ((content.drop 3).take (e - 3))
      let body := content.drop (e + 3)
      let targetLayout :=
        if includes apiKey fmBlock then
          repeatStr (strOf "../") (p.depth + 1) ++ p.apiLayoutPath
        else layoutPath
      let fm2 := versionPrepend p.version (langPrepend p.locale fmBlock)
      if includes layoutKey fm2 then composeFm fm2 body
      else composeFm (fm2 ++ ['\n'] ++ strOf "layout: " ++ targetLayout) body
    | Option.none => content
  else
    let langLine := match p.locale with | some loc => langLineOf loc | Option.none => []
    let versionLine :=
      match p.version with | some ver => versionLineOf ver | Option.none => []
    strOf "---\n" ++ langLine ++ versionLine ++ strOf "title: " ++ titleOf p.fileName
      ++ ['\n'] ++ strOf "layout: " ++ layoutPath ++ strOf "\n---\n\n" ++ content

/-- The frontmatter parse shared by `injectLayoutIntoMarkdown` (and
`parseFrontmatter` in src/core/scaffold.js): the trimmed block between the
`---` markers and the remainder after the closing `---`. -/
def frontmatterOf (content : Str) : Option (Str × Str) :=
  if dashes.isPrefixOf content then
    match jsIndexOf dashes content 3 with
    | some e => some (trim ((content.drop 3).take (e - 3)), content.drop (e + 3))
    | Option.none => Option.none
  else Option.none

/-! #### Counting helpers -/

theorem countOcc_eq_zero_iff (pat s : Str) (hp : pat ≠ []) :
    countOcc pat s = 0 ↔ ¬ pat <:+: s := by
  induction s with
  | nil =>
    rw [countOcc_nil_eq pat hp]
    simp only [true_iff]
    intro hcon
    exact hp (List.eq_nil_of_infix_nil hcon)
  | cons a t ih =>
    rw [List.infix_cons_iff]
    constructor
    · intro h
      have h2 : countOcc pat (a :: t) =
          (if pat.isPrefixOf (a :: t) then 1 else 0) + countOcc pat t := rfl
      rw [h2] at h
      rintro (hc | hc)
      · rw [if_pos (List.isPrefixOf_iff_prefix.mpr hc)] at h
        omega
      · have ht : countOcc pat t = 0 := by omega
        exact (ih.mp ht) hc
    · intro h
      push_neg at h
      have h1 : pat.isPrefixOf (a :: t) = false := by
        rw [Bool.eq_false_iff]
        intro hcon
        exact h.1 (List.isPrefixOf_iff_prefix.mp hcon)
      have h2 : countOcc pat (a :: t) =
          (if pat.isPrefixOf (a :: t) then 1 else 0) + countOcc pat t := rfl
      rw [h2, h1]
      simp only [Bool.false_eq_true, if_false, Nat.zero_add]
      exact ih.mpr h.2

theorem countOcc_zero_of_missing (pat s : Str) (ch : Char) (hch : ch ∈ pat)
    (hns : ch ∉ s) : countOcc pat s = 0 := by
  induction s with
  | nil =>
    exact countOcc_nil_eq pat (by rintro rfl; cases hch)
  | cons a t ih =>
    have h1 : pat.isPrefixOf (a :: t) = false := by
      rw [Bool.eq_false_iff]
      intro hcon
      exact hns ((List.isPrefixOf_iff_prefix.mp hcon).subset hch)
    have h2 : countOcc pat (a :: t) =
        (if pat.isPrefixOf (a :: t) then 1 else 0) + countOcc pat t := rfl
    rw [h2, h1]
    simp only [Bool.false_eq_true, if_false, Nat.zero_add]
    exact ih (fun hc => hns (List.mem_cons_of_mem a hc))

theorem not_infix_of_countOcc_zero (pat s : Str) (hp : pat ≠ [])
    (h : countOcc pat s = 0) : ¬ pat <:+: s :=
  (countOcc_eq_zero_iff pat s hp).mp h

theorem mem_repeatStr (s : Str) (n : Nat) (ch : Char) (h : ch ∈ repeatStr s n) :
    ch ∈ s := by
  induction n with
  | zero => cases h
  | succ n ih =>
    rcases List.mem_append.mp h with h | h
    · exact h
    · exact ih h

/-- Parsing a reassembled file recovers the trimmed block and the body,
provided the block contains no `---` marker. -/
theorem parse_composeFm (B body : Str) (hB : ¬ dashes <:+: B) :
    frontmatterOf (composeFm B body) = some (trim B, body) := by
  have hd : dashes = '-' :: '-' :: '-' :: [] := rfl
  have l1 : strOf "---\n" = '-' :: '-' :: '-' :: ['\n'] := rfl
  have l2 : strOf "---" = '-' :: '-' :: '-' :: [] := rfl
  have hshape : composeFm B body =
      '-' :: '-' :: '-' :: '\n' :: (B ++ '\n' :: ('-' :: '-' :: '-' :: body)) := by
    rw [composeFm, l1, l2]
    simp
  rw [hshape]
  unfold frontmatterOf
  rw [if_pos ?hpre]
  case hpre =>
    apply List.isPrefixOf_iff_prefix.mpr
    rw [hd]
    exact ⟨'\n' :: (B ++ '\n' :: ('-' :: '-' :: '-' :: body)), rfl⟩
  have hidx : jsIndexOf dashes
      ('-' :: '-' :: '-' :: '\n' :: (B ++ '\n' :: ('-' :: '-' :: '-' :: body))) 3 =
      some (3 + (B.length + 2)) := by
    unfold jsIndexOf
    have hdrop3 :
        ('-' :: '-' :: '-' :: '\n' :: (B ++ '\n' :: ('-' :: '-' :: '-' :: body))).drop 3 =
        '\n' :: (B ++ '\n' :: ('-' :: '-' :: '-' :: body)) := rfl
    rw [hdrop3]
    rw [findIdxFrom_eq_some_iff]
    refine ⟨B.length + 2, rfl, ?_, ?_⟩
    · have h1 : ('\n' :: (B ++ '\n' :: ('-' :: '-' :: '-' :: body))).drop (B.length + 2) =
          (B ++ '\n' :: ('-' :: '-' :: '-' :: body)).drop (B.length + 1) := by
        have : B.length + 2 = (B.length + 1) + 1 := rfl
        rw [this, List.drop_succ_cons]
      rw [h1, List.drop_append 1]
      rw [hd]
      exact ⟨body, rfl⟩
    · intro m hm
      cases m with
      | zero =>
        intro hcon
        rw [hd] at hcon
        have := (List.cons_prefix_cons.mp hcon).1
        cases this
      | succ m' =>
        intro hcon
        rw [List.drop_succ_cons] at hcon
        have hm' : m' ≤ B.length := by omega
        rw [List.drop_append_of_le_length hm'] at hcon
        rcases prefix_append_cons dashes (B.drop m') ('-' :: '-' :: '-' :: body) '\n'
            hcon with h | h
        · exact hB ((infix_iff_exists_drop dashes B).mpr ⟨m', h⟩)
        · rw [hd] at h
          simp at h
  rw [hidx]
  simp only []
  have hregion :
      (('-' :: '-' :: '-' :: '\n' ::
        (B ++ '\n' :: ('-' :: '-' :: '-' :: body))).drop 3).take (3 + (B.length + 2) - 3) =
      '\n' :: (B ++ ['\n']) := by
    have h0 : 3 + (B.length + 2) - 3 = B.length + 2 := by omega
    rw [h0]
    show ('\n' :: (B ++ '\n' :: ('-' :: '-' :: '-' :: body))).take (B.length + 2) = _
    have h1 : B.length + 2 = (B.length + 1) + 1 := rfl
    rw [h1, List.take_succ_cons]
    rw [List.take_append_eq_append_take]
    rw [List.take_of_length_le (by omega)]
    have h2 : B.length + 1 - B.length = 1 := by omega
    rw [h2]
    rfl
  rw [hregion]
  have hbody :
      ('-' :: '-' :: '-' :: '\n' ::
        (B ++ '\n' :: ('-' :: '-' :: '-' :: body))).drop (3 + (B.length + 2) + 3) =
      body := by
    have h0 : 3 + (B.length + 2) + 3 =
        (['-', '-', '-', '\n'] : Str).length + (B.length + 4) := by
      simp
      omega
    rw [h0]
    show ((['-', '-', '-', '\n'] : Str) ++
      (B ++ '\n' :: ('-' :: '-' :: '-' :: body))).drop
        ((['-', '-', '-', '\n'] : Str).length + (B.length + 4)) = body
    rw [List.drop_append (B.length + 4)]
    have h1 : B.length + 4 = B.length + 4 := rfl
    rw [List.drop_append 4]
    rfl
  rw [hbody]
  rw [trim_wrap]

theorem trim_infix_self (s : Str) : trim s <:+: s := by
  rcases trimLeft_suffix s with ⟨w1, hw1, -⟩
  rcases trimRight_prefix (trimLeft s) with ⟨w2, hw2, -⟩
  refine ⟨w1, w2, ?_⟩
  conv_rhs => rw [hw1, hw2]
  show w1 ++ trim s ++ w2 = w1 ++ (trim s ++ w2)
  simp

theorem prefix_of_prefix_take (pat l : Str) (j : Nat) (h : pat <+: l.take j) :
    pat <+: l := h.trans (List.take_prefix j l)

/-- Facts about a parsed frontmatter block: it contains no `---` marker, it
is trimmed, and its first and last characters are not whitespace. -/
theorem parse_facts (c fm body : Str) (hpf : frontmatterOf c = some (fm, body)) :
    ¬ dashes <:+: fm ∧ trim fm = fm ∧
      (∀ a t, fm = a :: t → isWS a = false) ∧
      (∀ a t, fm.reverse = a :: t → isWS a = false) := by
  unfold frontmatterOf at hpf
  by_cases h1 : dashes.isPrefixOf c = true
  · rw [if_pos h1] at hpf
    cases he : jsIndexOf dashes c 3 with
    | none =>
      rw [he] at hpf
      cases hpf
    | some e =>
      rw [he] at hpf
      simp only [Option.some.injEq, Prod.mk.injEq] at hpf
      rcases hpf with ⟨hfm, hbody⟩
      have hnoinfix : ¬ dashes <:+: ((c.drop 3).take (e - 3)) := by
        unfold jsIndexOf at he
        rw [findIdxFrom_eq_some_iff] at he
        rcases he with ⟨k, hk, hocc, hmin⟩
        have hk3 : e - 3 = k := by omega
        rw [hk3]
        intro hcon
        rcases (infix_iff_exists_drop _ _).mp hcon with ⟨m, hm⟩
        rw [List.drop_take] at hm
        by_cases hmk : m < k
        · exact hmin m hmk (prefix_of_prefix_take _ _ _ hm)
        · have hz : k - m = 0 := by omega
          rw [hz] at hm
          have : dashes = [] := List.prefix_nil.mp (by simpa using hm)
          cases this
      refine ⟨?_, ?_, ?_, ?_⟩
      · rw [← hfm]
        intro hcon
        exact hnoinfix (hcon.trans (trim_infix_self _))
      · rw [← hfm, trim_trim]
      · intro a t ht
        exact trim_head_not_ws _ a t (by rw [hfm]; exact ht)
      · intro a t ht
        exact trim_getLast_not_ws _ a t (by rw [hfm]; exact ht)
  · rw [if_neg h1] at hpf
    cases hpf

/-- On a file with parseable frontmatter, `injectLayoutIntoMarkdown`
computes the documented rewrite of the parsed block and body. -/
theorem inject_eq_of_parse (p : InjectParams) (c fm body : Str)
    (hpf : frontmatterOf c = some (fm, body)) :
    injectLayoutIntoMarkdown p c =
      (if includes layoutKey (versionPrepend p.version (langPrepend p.locale fm)) then
        composeFm (versionPrepend p.version (langPrepend p.locale fm)) body
      else
        composeFm
          (versionPrepend p.version (langPrepend p.locale fm) ++ ['\n'] ++
            strOf "layout: " ++
            (if includes apiKey fm then
              repeatStr (strOf "../") (p.depth + 1) ++ p.apiLayoutPath
            else repeatStr (strOf "../") (p.depth + 1) ++ p.baseLayoutPath))
          body) := by
  unfold frontmatterOf at hpf
  by_cases h1 : dashes.isPrefixOf c = true
  · rw [if_pos h1] at hpf
    cases he : jsIndexOf dashes c 3 with
    | none =>
      rw [he] at hpf
      cases hpf
    | some e =>
      rw [he] at hpf
      simp only [Option.some.injEq, Prod.mk.injEq] at hpf
      rcases hpf with ⟨hfm, hbody⟩
      unfold injectLayoutIntoMarkdown
      rw [if_pos h1, he]
      simp only [hfm, hbody]
  · rw [if_neg h1] at hpf
    cases hpf

/-- Counting occurrences across a `label value\n` header line prepended to
`Y`: when the key contains neither the space nor the newline separator and
does not occur in the value, the count splits. -/
theorem countOcc_label_line (κ label v Y : Str) (hsp : ' ' ∉ κ) (hnl : '\n' ∉ κ)
    (hne : κ ≠ []) (hv : countOcc κ v = 0) :
    countOcc κ ((label ++ [' ']) ++ v ++ ['\n'] ++ Y) =
      countOcc κ label + countOcc κ Y := by
  have h1 : (label ++ [' ']) ++ v ++ ['\n'] ++ Y = label ++ ' ' :: (v ++ '\n' :: Y) := by
    simp
  rw [h1, countOcc_append_cons κ label _ ' ' hsp hne,
    countOcc_append_cons κ v Y '\n' hnl hne, hv]
  omega

/-- Counting occurrences across an appended `\nlayout: tl` line. -/
theorem countOcc_layout_line (κ Z tl : Str) (hsp : ' ' ∉ κ) (hnl : '\n' ∉ κ)
    (hne : κ ≠ []) (htl : countOcc κ tl = 0) :
    countOcc κ (Z ++ ['\n'] ++ strOf "layout: " ++ tl) =
      countOcc κ Z + countOcc κ (strOf "layout:") := by
  have h1 : Z ++ ['\n'] ++ strOf "layout: " ++ tl =
      Z ++ '\n' :: (strOf "layout:" ++ ' ' :: tl) := by
    have h2 : strOf "layout: " = strOf "layout:" ++ [' '] := rfl
    rw [h2]
    simp
  rw [h1, countOcc_append_cons κ Z _ '\n' hnl hne,
    countOcc_append_cons κ (strOf "layout:") tl ' ' hsp hne, htl]
  omega

theorem head_of_append_left (x y : Str) (a : Char) (t : Str) (hx : x ≠ [])
    (h : x ++ y = a :: t) : ∃ t2, x = a :: t2 := by
  cases x with
  | nil => exact absurd rfl hx
  | cons b bs =>
    refine ⟨bs, ?_⟩
    have : b = a := by
      have h2 := congrArg List.head? h
      simpa using h2
    rw [this]

theorem includes_eq_true_iff_countOcc_ne (κ s : Str) (hne : κ ≠ []) :
    includes κ s = true ↔ countOcc κ s ≠ 0 := by
  rw [includes_true_iff]
  constructor
  · intro h hc
    exact (countOcc_eq_zero_iff κ s hne).mp hc h
  · intro h
    by_contra hcon
    exact h ((countOcc_eq_zero_iff κ s hne).mpr hcon)

theorem includes_eq_of_countOcc_eq (κ x y : Str) (hne : κ ≠ [])
    (h : countOcc κ x = countOcc κ y) : includes κ x = includes κ y := by
  have hx := includes_eq_true_iff_countOcc_ne κ x hne
  have hy := includes_eq_true_iff_countOcc_ne κ y hne
  rw [Bool.eq_iff_iff, hx, hy, h]

theorem langPrepend_shape (locale : Option Str) (fm : Str)
    (hloc : ∀ loc, locale = some loc → ':' ∉ loc ∧ '\n' ∉ loc ∧ ¬ dashes <:+: loc) :
    ∃ pre1, langPrepend locale fm = pre1 ++ fm ∧
      countOcc layoutKey (pre1 ++ fm) = countOcc layoutKey fm ∧
      countOcc docVersionKey (pre1 ++ fm) = countOcc docVersionKey fm ∧
      countOcc langKey (pre1 ++ fm) = countOcc langKey fm +
        (if locale ≠ Option.none ∧ includes langKey fm = false then 1 else 0) ∧
      countOcc dashes (pre1 ++ fm) = countOcc dashes fm ∧
      (locale ≠ Option.none → includes langKey (pre1 ++ fm) = true) ∧
      (∀ a t, pre1 = a :: t → isWS a = false) ∧
      ((locale = Option.none ∨ includes langKey fm = true) → pre1 = []) := by
  cases locale with
  | none =>
    refine ⟨[], by simp [langPrepend], by simp, by simp, by simp, by simp, ?_, ?_, ?_⟩
    · intro h; exact absurd rfl h
    · intro a t h; cases h
    · intro _; rfl
  | some loc =>
    obtain ⟨hcol, hnl2, hdash⟩ := hloc loc rfl
    by_cases hl : includes langKey fm = true
    · refine ⟨[], ?_, by simp, by simp, ?_, by simp, ?_, ?_, ?_⟩
      · simp [langPrepend, hl]
      · rw [hl]
        simp
      · intro h
        simpa using hl
      · intro a t h; cases h
      · intro _; rfl
    · have hl2 : includes langKey fm = false := by
        rw [Bool.eq_false_iff]; exact hl
      have hform : ∀ Y : Str, langLineOf loc ++ Y =
          (strOf "lang:" ++ [' ']) ++ loc ++ ['\n'] ++ Y := by
        intro Y; rfl
      refine ⟨langLineOf loc, ?_, ?_, ?_, ?_, ?_, ?_, ?_, ?_⟩
      · simp [langPrepend, hl2]
      · rw [hform]
        rw [countOcc_label_line layoutKey (strOf "lang:") loc fm (by decide) (by decide)
          (by decide) (countOcc_zero_of_missing layoutKey loc ':' (by decide) hcol)]
        have h0 : countOcc layoutKey (strOf "lang:") = 0 := by decide
        omega
      · rw [hform]
        rw [countOcc_label_line docVersionKey (strOf "lang:") loc fm (by decide) (by decide)
          (by decide) (countOcc_zero_of_missing docVersionKey loc ':' (by decide) hcol)]
        have h0 : countOcc docVersionKey (strOf "lang:") = 0 := by decide
        omega
      · rw [hform]
        rw [countOcc_label_line langKey (strOf "lang:") loc fm (by decide) (by decide)
          (by decide) (countOcc_zero_of_missing langKey loc ':' (by decide) hcol)]
        have h0 : countOcc langKey (strOf "lang:") = 1 := by decide
        rw [hl2]
        simp only [ne_eq, reduceCtorEq, not_false_eq_true, true_and, if_true]
        omega
      · rw [hform]
        rw [countOcc_label_line dashes (strOf "lang:") loc fm (by decide) (by decide)
          (by decide) ((countOcc_eq_zero_iff dashes loc (by decide)).mpr hdash)]
        have h0 : countOcc dashes (strOf "lang:") = 0 := by decide
        omega
      · intro h
        rw [includes_true_iff]
        refine ⟨[], ' ' :: (loc ++ '\n' :: fm), ?_⟩
        rw [hform]
        simp [langKey]
      · intro a t h
        have h2 := congrArg List.head? h
        have h3 : a = 'l' := by
          have h4 : (langLineOf loc).head? = some 'l' := rfl
          rw [h4] at h2
          simpa using h2.symm
        rw [h3]
        decide
      · rintro (h | h)
        · cases h
        · rw [h] at hl2; cases hl2

theorem versionPrepend_shape (version : Option Str) (X : Str)
    (hver : ∀ ver, version = some ver → ':' ∉ ver ∧ '\n' ∉ ver ∧ ¬ dashes <:+: ver) :
    ∃ pre2, versionPrepend version X = pre2 ++ X ∧
      countOcc layoutKey (pre2 ++ X) = countOcc layoutKey X ∧
      countOcc langKey (pre2 ++ X) = countOcc langKey X ∧
      countOcc docVersionKey (pre2 ++ X) = countOcc docVersionKey X +
        (if version ≠ Option.none ∧ includes docVersionKey X = false then 1 else 0) ∧
      countOcc dashes (pre2 ++ X) = countOcc dashes X ∧
      (version ≠ Option.none → includes docVersionKey (pre2 ++ X) = true) ∧
      (∀ a t, pre2 = a :: t → isWS a = false) ∧
      ((version = Option.none ∨ includes docVersionKey X = true) → pre2 = []) := by
  cases version with
  | none =>
    refine ⟨[], by simp [versionPrepend], by simp, by simp, by simp, by simp, ?_, ?_, ?_⟩
    · intro h; exact absurd rfl h
    · intro a t h; cases h
    · intro _; rfl
  | some ver =>
    obtain ⟨hcol, hnl2, hdash⟩ := hver ver rfl
    by_cases hl : includes docVersionKey X = true
    · refine ⟨[], ?_, by simp, by simp, ?_, by simp, ?_, ?_, ?_⟩
      · simp [versionPrepend, hl]
      · rw [hl]
        simp
      · intro h
        simpa using hl
      · intro a t h; cases h
      · intro _; rfl
    · have hl2 : includes docVersionKey X = false := by
        rw [Bool.eq_false_iff]; exact hl
      have hform : ∀ Y : Str, versionLineOf ver ++ Y =
          (strOf "docVersion:" ++ [' ']) ++ ver ++ ['\n'] ++ Y := by
        intro Y; rfl
      refine ⟨versionLineOf ver, ?_, ?_, ?_, ?_, ?_, ?_, ?_, ?_⟩
      · simp [versionPrepend, hl2]
      · rw [hform]
        rw [countOcc_label_line layoutKey (strOf "docVersion:") ver X (by decide)
          (by decide) (by decide)
          (countOcc_zero_of_missing layoutKey ver ':' (by decide) hcol)]
        have h0 : countOcc layoutKey (strOf "docVersion:") = 0 := by decide
        omega
      · rw [hform]
        rw [countOcc_label_line langKey (strOf "docVersion:") ver X (by decide)
          (by decide) (by decide)
          (countOcc_zero_of_missing langKey ver ':' (by decide) hcol)]
        have h0 : countOcc langKey (strOf "docVersion:") = 0 := by decide
        omega
      · rw [hform]
        rw [countOcc_label_line docVersionKey (strOf "docVersion:") ver X (by decide)
          (by decide) (by decide)
          (countOcc_zero_of_missing docVersionKey ver ':' (by decide) hcol)]
        have h0 : countOcc docVersionKey (strOf "docVersion:") = 1 := by decide
        rw [hl2]
        simp only [ne_eq, reduceCtorEq, not_false_eq_true, true_and, if_true]
        omega
      · rw [hform]
        rw [countOcc_label_line dashes (strOf "docVersion:") ver X (by decide) (by decide)
          (by decide) ((countOcc_eq_zero_iff dashes ver (by decide)).mpr hdash)]
        have h0 : countOcc dashes (strOf "docVersion:") = 0 := by decide
        omega
      · intro h
        rw [includes_true_iff]
        refine ⟨[], ' ' :: (ver ++ '\n' :: X), ?_⟩
        rw [hform]
        simp [docVersionKey]
      · intro a t h
        have h2 := congrArg List.head? h
        have h3 : a = 'd' := by
          have h4 : (versionLineOf ver).head? = some 'd' := rfl
          rw [h4] at h2
          simpa using h2.symm
        rw [h3]
        decide
      · rintro (h | h)
        · cases h
        · rw [h] at hl2; cases hl2

theorem targetLayout_facts (d : Nat) (path : Str)
    (hcol : ':' ∉ path) (hdash : '-' ∉ path)
    (hlast : ∀ a t, path.reverse = a :: t → isWS a = false) :
    ':' ∉ (repeatStr (strOf "../") (d + 1) ++ path) ∧
    '-' ∉ (repeatStr (strOf "../") (d + 1) ++ path) ∧
    (repeatStr (strOf "../") (d + 1) ++ path) ≠ [] ∧
    (∀ a t, (repeatStr (strOf "../") (d + 1) ++ path).reverse = a :: t →
      isWS a = false) := by
  have hmem : ∀ ch, ch ∈ repeatStr (strOf "../") (d + 1) → ch = '.' ∨ ch = '/' := by
    intro ch h
    have h2 := mem_repeatStr _ _ _ h
    rcases List.mem_cons.mp h2 with h3 | h3
    · exact Or.inl h3
    rcases List.mem_cons.mp h3 with h4 | h4
    · exact Or.inl h4
    rcases List.mem_cons.mp h4 with h5 | h5
    · exact Or.inr h5
    · cases h5
  refine ⟨?_, ?_, ?_, ?_⟩
  · intro hcon
    rcases List.mem_append.mp hcon with h | h
    · rcases hmem ':' h with h2 | h2 <;> cases h2
    · exact hcol h
  · intro hcon
    rcases List.mem_append.mp hcon with h | h
    · rcases hmem '-' h with h2 | h2 <;> cases h2
    · exact hdash h
  · have hc : repeatStr (strOf "../") (d + 1) ++ path =
        '.' :: '.' :: '/' :: (repeatStr (strOf "../") d ++ path) := rfl
    rw [hc]
    intro h
    cases h
  · intro a t h
    rw [List.reverse_append] at h
    cases hrev : path.reverse with
    | nil =>
      rw [hrev, List.nil_append] at h
      have ha : a ∈ (repeatStr (strOf "../") (d + 1)).reverse := by
        rw [h]
        exact List.mem_cons_self a t
      rw [List.mem_reverse] at ha
      rcases hmem a ha with h2 | h2 <;> (rw [h2]; decide)
    | cons b bs =>
      rw [hrev] at h
      have hba : b = a := by
        have h2 := congrArg List.head? h
        simpa using h2
      rw [← hba]
      exact hlast b bs hrev

/-- The shape of one `injectLayoutIntoMarkdown` rewrite of a file with
parseable frontmatter: the new block is the old block with optional
`docVersion:`/`lang:` header lines in front and an optional `layout:` line
behind, and the rewritten file parses back to that block. -/
theorem inject_shape (p : InjectParams) (c fm body : Str)
    (hpf : frontmatterOf c = some (fm, body))
    (hloc : ∀ loc, p.locale = some loc → ':' ∉ loc ∧ '\n' ∉ loc ∧ ¬ dashes <:+: loc)
    (hver : ∀ ver, p.version = some ver → ':' ∉ ver ∧ '\n' ∉ ver ∧ ¬ dashes <:+: ver)
    (hbase : ':' ∉ p.baseLayoutPath ∧ '-' ∉ p.baseLayoutPath ∧
      (∀ a t, p.baseLayoutPath.reverse = a :: t → isWS a = false))
    (hapi : ':' ∉ p.apiLayoutPath ∧ '-' ∉ p.apiLayoutPath ∧
      (∀ a t, p.apiLayoutPath.reverse = a :: t → isWS a = false)) :
    ∃ pre post,
      injectLayoutIntoMarkdown p c = composeFm (pre ++ fm ++ post) body ∧
      frontmatterOf (injectLayoutIntoMarkdown p c) =
        some (trim (pre ++ fm ++ post), body) ∧
      (fm ≠ [] → trim (pre ++ fm ++ post) = pre ++ fm ++ post) ∧
      (includes layoutKey fm = true → post = []) ∧
      countOcc layoutKey (pre ++ fm ++ post) =
        countOcc layoutKey fm + (if includes layoutKey fm = true then 0 else 1) ∧
      countOcc langKey (pre ++ fm ++ post) = countOcc langKey fm +
        (if p.locale ≠ Option.none ∧ includes langKey fm = false then 1 else 0) ∧
      countOcc docVersionKey (pre ++ fm ++ post) = countOcc docVersionKey fm +
        (if p.version ≠ Option.none ∧ includes docVersionKey fm = false then 1 else 0) ∧
      includes layoutKey (pre ++ fm ++ post) = true ∧
      (p.locale ≠ Option.none → includes langKey (pre ++ fm ++ post) = true) ∧
      (p.version ≠ Option.none → includes docVersionKey (pre ++ fm ++ post) = true) ∧
      ¬ dashes <:+: (pre ++ fm ++ post) ∧
      ((p.locale = Option.none ∨ includes langKey fm = true) →
        (p.version = Option.none ∨ includes docVersionKey fm = true) →
        includes layoutKey fm = true → pre = [] ∧ post = []) := by
  obtain ⟨hfm_nd, hfm_tr, hfm_h, hfm_l⟩ := parse_facts c fm body hpf
  have hfm_dash0 : countOcc dashes fm = 0 :=
    (countOcc_eq_zero_iff dashes fm (by decide)).mpr hfm_nd
  have hinj := inject_eq_of_parse p c fm body hpf
  obtain ⟨pre1, hfm1, hc1_lay, hc1_dv, hc1_lang, hc1_dash, hc1_inc, hc1_head, hc1_nil⟩ :=
    langPrepend_shape p.locale fm hloc
  obtain ⟨pre2, hfm2, hc2_lay, hc2_lang, hc2_dv, hc2_dash, hc2_inc, hc2_head, hc2_nil⟩ :=
    versionPrepend_shape p.version (langPrepend p.locale fm) hver
  have hfm2' : versionPrepend p.version (langPrepend p.locale fm) =
      pre2 ++ (pre1 ++ fm) := by rw [hfm2, hfm1]
  rw [hfm1] at hc2_lay hc2_lang hc2_dv hc2_dash hc2_inc
  -- counts of the combined header prefix
  have hZ_lay : countOcc layoutKey (pre2 ++ (pre1 ++ fm)) = countOcc layoutKey fm := by
    rw [hc2_lay, hc1_lay]
  have hZ_lang : countOcc langKey (pre2 ++ (pre1 ++ fm)) = countOcc langKey fm +
      (if p.locale ≠ Option.none ∧ includes langKey fm = false then 1 else 0) := by
    rw [hc2_lang, hc1_lang]
  have hdvX : includes docVersionKey (pre1 ++ fm) = includes docVersionKey fm :=
    includes_eq_of_countOcc_eq docVersionKey (pre1 ++ fm) fm (by decide) hc1_dv
  have hZ_dv : countOcc docVersionKey (pre2 ++ (pre1 ++ fm)) =
      countOcc docVersionKey fm +
      (if p.version ≠ Option.none ∧ includes docVersionKey fm = false then 1 else 0) := by
    rw [hc2_dv, hc1_dv, hdvX]
  have hZ_dash : countOcc dashes (pre2 ++ (pre1 ++ fm)) = 0 := by
    rw [hc2_dash, hc1_dash, hfm_dash0]
  have hdvXinc := hdvX
  -- the `lang:`/`docVersion:` includes transfer through the version prepend
  have hlangXinc : p.locale ≠ Option.none →
      includes langKey (pre2 ++ (pre1 ++ fm)) = true := by
    intro h
    have h1 := hc1_inc h
    rw [includes_true_iff] at h1 ⊢
    exact h1.trans (List.suffix_append pre2 (pre1 ++ fm)).isInfix
  -- head characters of the combined block
  have hhead_block : fm ≠ [] → ∀ a t, pre2 ++ (pre1 ++ fm) = a :: t →
      isWS a = false := by
    intro hfm_ne a t h
    cases hp2 : pre2 with
    | cons b bs =>
      rw [hp2] at h
      have hba : b = a := by
        have h2 := congrArg List.head? h
        simpa using h2
      exact hba ▸ hc2_head b bs hp2
    | nil =>
      rw [hp2, List.nil_append] at h
      cases hp1 : pre1 with
      | cons b bs =>
        rw [hp1] at h
        have hba : b = a := by
          have h2 := congrArg List.head? h
          simpa using h2
        exact hba ▸ hc1_head b bs hp1
      | nil =>
        rw [hp1, List.nil_append] at h
        exact hfm_h a t h
  -- the layout test on the fully-prepended block matches the test on `fm`
  have hlay_eq : includes layoutKey (versionPrepend p.version (langPrepend p.locale fm)) =
      includes layoutKey fm := by
    rw [hfm2']
    exact includes_eq_of_countOcc_eq layoutKey _ fm (by decide) hZ_lay
  by_cases hl : includes layoutKey fm = true
  · -- the block already has a layout line: nothing is appended
    refine ⟨pre2 ++ pre1, [], ?_, ?_, ?_, ?_, ?_, ?_, ?_, ?_, ?_, ?_, ?_, ?_⟩
    all_goals
      (try rw [show (pre2 ++ pre1) ++ fm ++ ([] : Str) = pre2 ++ (pre1 ++ fm) by simp])
    · rw [hinj, if_pos (by rw [hlay_eq]; exact hl), hfm2']
    · rw [hinj, if_pos (by rw [hlay_eq]; exact hl), hfm2']
      exact parse_composeFm _ body
        (not_infix_of_countOcc_zero dashes _ (by decide) hZ_dash)
    · intro hfm_ne
      apply trim_eq_self_of_ends
      · exact hhead_block hfm_ne
      · intro a t h
        rw [List.reverse_append, List.reverse_append] at h
        have hfr : fm.reverse ≠ [] := by
          intro hcon
          exact hfm_ne (by simpa using congrArg List.reverse hcon)
        rcases head_of_append_left _ _ a _ (by
          intro hcon
          exact hfr (by
            rcases List.append_eq_nil.mp hcon with ⟨h3, -⟩
            exact h3)) h with ⟨t2, h3⟩
        rcases head_of_append_left _ _ a _ hfr h3 with ⟨t3, h4⟩
        exact hfm_l a t3 h4
    · intro _; rfl
    · rw [hZ_lay, hl]
      simp
    · exact hZ_lang
    · exact hZ_dv
    · rw [includes_true_iff] at hl ⊢
      refine hl.trans ?_
      exact ⟨pre2 ++ pre1, [], by simp⟩
    · exact hlangXinc
    · intro h
      exact hc2_inc h
    · exact not_infix_of_countOcc_zero dashes _ (by decide) hZ_dash
    · intro hlang hdv hlay
      have hp1 : pre1 = [] := hc1_nil hlang
      have hp2 : pre2 = [] := by
        apply hc2_nil
        rcases hdv with h | h
        · exact Or.inl h
        · right
          rw [hfm1, hdvX, h]
      rw [hp1, hp2]
      exact ⟨rfl, rfl⟩
  · -- no layout line yet: one is appended behind the block
    have hl2 : includes layoutKey fm = false := by
      rw [Bool.eq_false_iff]; exact hl
    set tl := (if includes apiKey fm then
        repeatStr (strOf "../") (p.depth + 1) ++ p.apiLayoutPath
      else repeatStr (strOf "../") (p.depth + 1) ++ p.baseLayoutPath) with htl_def
    have htl : ':' ∉ tl ∧ '-' ∉ tl ∧ tl ≠ [] ∧
        (∀ a t, tl.reverse = a :: t → isWS a = false) := by
      rw [htl_def]
      by_cases hax : includes apiKey fm = true
      · rw [if_pos hax]
        exact targetLayout_facts p.depth p.apiLayoutPath hapi.1 hapi.2.1 hapi.2.2
      · rw [if_neg hax]
        exact targetLayout_facts p.depth p.baseLayoutPath hbase.1 hbase.2.1 hbase.2.2
    have htl_col0 : ∀ κ : Str, ':' ∈ κ → countOcc κ tl = 0 := by
      intro κ hκ
      exact countOcc_zero_of_missing κ tl ':' hκ htl.1
    have htl_dash0 : countOcc dashes tl = 0 :=
      countOcc_zero_of_missing dashes tl '-' (by decide) htl.2.1
    refine ⟨pre2 ++ pre1, ['\n'] ++ strOf "layout: " ++ tl, ?_, ?_, ?_, ?_, ?_, ?_,
      ?_, ?_, ?_, ?_, ?_, ?_⟩
    all_goals
      (try rw [show (pre2 ++ pre1) ++ fm ++ (['\n'] ++ strOf "layout: " ++ tl) =
        (pre2 ++ (pre1 ++ fm)) ++ ['\n'] ++ strOf "layout: " ++ tl by simp])
    · rw [hinj, if_neg (by rw [hlay_eq, hl2]; simp), hfm2']
    · rw [hinj, if_neg (by rw [hlay_eq, hl2]; simp), hfm2']
      exact parse_composeFm
        ((pre2 ++ (pre1 ++ fm)) ++ ['\n'] ++ strOf "layout: " ++ tl) body
        (not_infix_of_countOcc_zero dashes _ (by decide) (by
          rw [countOcc_layout_line dashes _ tl (by decide) (by decide) (by decide)
            htl_dash0, hZ_dash]
          decide))
    · intro hfm_ne
      apply trim_eq_self_of_ends
      · intro a t h
        have h2 : pre2 ++ (pre1 ++ fm) ++ (['\n'] ++ strOf "layout: " ++ tl) =
            a :: t := by
          rw [← h]
          simp
        cases hz : pre2 ++ (pre1 ++ fm) with
        | nil =>
          exact absurd (List.append_eq_nil.mp
            (List.append_eq_nil.mp hz).2).2 hfm_ne
        | cons b bs =>
          rw [hz] at h2
          have hba : b = a := by
            have h3 := congrArg List.head? h2
            simpa using h3
          exact hba ▸ hhead_block hfm_ne b bs hz
      · intro a t h
        have h2 : tl.reverse ++ ((strOf "layout: ").reverse ++ ['\n'].reverse ++
            (pre2 ++ (pre1 ++ fm)).reverse) = a :: t := by
          rw [← h]
          simp
        have hfr : tl.reverse ≠ [] := by
          intro hcon
          exact htl.2.2.1 (by simpa using congrArg List.reverse hcon)
        rcases head_of_append_left _ _ a _ hfr h2 with ⟨t2, h3⟩
        exact htl.2.2.2 a t2 h3
    · intro hcon
      rw [hcon] at hl2
      cases hl2
    · rw [countOcc_layout_line layoutKey _ tl (by decide) (by decide) (by decide)
        (htl_col0 layoutKey (by decide)), hZ_lay, hl2]
      have h0 : countOcc layoutKey (strOf "layout:") = 1 := by decide
      rw [h0]
      simp
    · rw [countOcc_layout_line langKey _ tl (by decide) (by decide) (by decide)
        (htl_col0 langKey (by decide)), hZ_lang]
      have h0 : countOcc langKey (strOf "layout:") = 0 := by decide
      rw [h0]
      omega
    · rw [countOcc_layout_line docVersionKey _ tl (by decide) (by decide) (by decide)
        (htl_col0 docVersionKey (by decide)), hZ_dv]
      have h0 : countOcc docVersionKey (strOf "layout:") = 0 := by decide
      rw [h0]
      omega
    · rw [includes_true_iff]
      refine ⟨(pre2 ++ (pre1 ++ fm)) ++ ['\n'], ' ' :: tl, ?_⟩
      have hlsp : strOf "layout: " = layoutKey ++ [' '] := rfl
      rw [hlsp]
      simp
    · intro h
      have h1 := hlangXinc h
      rw [includes_true_iff] at h1 ⊢
      refine h1.trans ?_
      have hsuf : pre2 ++ (pre1 ++ fm) <+:
          (pre2 ++ (pre1 ++ fm)) ++ ['\n'] ++ strOf "layout: " ++ tl :=
        ⟨['\n'] ++ strOf "layout: " ++ tl, by simp⟩
      exact hsuf.isInfix
    · intro h
      have h1 := hc2_inc h
      rw [includes_true_iff] at h1 ⊢
      refine h1.trans ?_
      have hsuf : pre2 ++ (pre1 ++ fm) <+:
          (pre2 ++ (pre1 ++ fm)) ++ ['\n'] ++ strOf "layout: " ++ tl :=
        ⟨['\n'] ++ strOf "layout: " ++ tl, by simp⟩
      exact hsuf.isInfix
    · apply not_infix_of_countOcc_zero dashes _ (by decide)
      rw [countOcc_layout_line dashes _ tl (by decide) (by decide) (by decide)
        htl_dash0, hZ_dash]
      decide
    · intro _ _ hlay
      rw [hlay] at hl2
      cases hl2

/-- C1: layout injection is idempotent and non-destructive.  For a file with
parseable frontmatter (and well-formed locale/version/layout-path strings):
when the block contains `layout:` the rewritten block keeps the old block
verbatim as a suffix with no new `layout:` occurrence; a `lang:` line is
prepended only when `lang:` is absent (when present the `lang:` occurrence
count is unchanged) and likewise for `docVersion:`; and injecting a second
time yields the same parsed frontmatter and body as injecting once. -/
theorem c1_injectLayout_idempotent_nondestructive (p : InjectParams)
    (c fm body : Str)
    (hpf : frontmatterOf c = some (fm, body))
    (hloc : ∀ loc, p.locale = some loc → ':' ∉ loc ∧ '\n' ∉ loc ∧ ¬ dashes <:+: loc)
    (hver : ∀ ver, p.version = some ver → ':' ∉ ver ∧ '\n' ∉ ver ∧ ¬ dashes <:+: ver)
    (hbase : ':' ∉ p.baseLayoutPath ∧ '-' ∉ p.baseLayoutPath ∧
      (∀ a t, p.baseLayoutPath.reverse = a :: t → isWS a = false))
    (hapi : ':' ∉ p.apiLayoutPath ∧ '-' ∉ p.apiLayoutPath ∧
      (∀ a t, p.apiLayoutPath.reverse = a :: t → isWS a = false)) :
    (includes layoutKey fm = true →
      ∃ pre, frontmatterOf (injectLayoutIntoMarkdown p c) = some (pre ++ fm, body) ∧
        countOcc layoutKey (pre ++ fm) = countOcc layoutKey fm) ∧
    (includes langKey fm = true →
      ∃ pre post,
        frontmatterOf (injectLayoutIntoMarkdown p c) = some (pre ++ fm ++ post, body) ∧
        countOcc langKey (pre ++ fm ++ post) = countOcc langKey fm) ∧
    (includes docVersionKey fm = true →
      ∃ pre post,
        frontmatterOf (injectLayoutIntoMarkdown p c) = some (pre ++ fm ++ post, body) ∧
        countOcc docVersionKey (pre ++ fm ++ post) = countOcc docVersionKey fm) ∧
    frontmatterOf (injectLayoutIntoMarkdown p (injectLayoutIntoMarkdown p c)) =
      frontmatterOf (injectLayoutIntoMarkdown p c) := by
  obtain ⟨pre, post, hA, hB, hC, hD, hE, hF, hG, hH, hI, hJ, hK, hL⟩ :=
    inject_shape p c fm body hpf hloc hver hbase hapi
  have hfm_ne_of : ∀ κ : Str, κ ≠ [] → includes κ fm = true → fm ≠ [] := by
    intro κ hκ h hfm0
    rw [hfm0, includes_true_iff] at h
    exact hκ (List.eq_nil_of_infix_nil h)
  refine ⟨?_, ?_, ?_, ?_⟩
  · intro hl
    have hne := hfm_ne_of layoutKey (by decide) hl
    refine ⟨pre, ?_, ?_⟩
    · rw [hB, hC hne, hD hl]
      simp
    · have h1 := hE
      rw [hl, hD hl] at h1
      simpa using h1
  · intro hl
    have hne := hfm_ne_of langKey (by decide) hl
    refine ⟨pre, post, ?_, ?_⟩
    · rw [hB, hC hne]
    · rw [hF, hl]
      simp
  · intro hl
    have hne := hfm_ne_of docVersionKey (by decide) hl
    refine ⟨pre, post, ?_, ?_⟩
    · rw [hB, hC hne]
    · rw [hG, hl]
      simp
  · obtain ⟨pre2, post2, hA2, hB2, hC2, hD2, hE2, hF2, hG2, hH2, hI2, hJ2, hK2, hL2⟩ :=
      inject_shape p (injectLayoutIntoMarkdown p c) (trim (pre ++ fm ++ post)) body hB
        hloc hver hbase hapi
    have hlay2 : includes layoutKey (trim (pre ++ fm ++ post)) = true := by
      rw [includes_true_iff] at hH ⊢
      exact infix_trim_of_infix layoutKey _ (by decide) (by decide) hH
    have hlang2 : p.locale = Option.none ∨
        includes langKey (trim (pre ++ fm ++ post)) = true := by
      cases hpl : p.locale with
      | none => exact Or.inl rfl
      | some loc =>
        right
        have h1 := hI (by rw [hpl]; intro hcon; cases hcon)
        rw [includes_true_iff] at h1 ⊢
        exact infix_trim_of_infix langKey _ (by decide) (by decide) h1
    have hdv2 : p.version = Option.none ∨
        includes docVersionKey (trim (pre ++ fm ++ post)) = true := by
      cases hpv : p.version with
      | none => exact Or.inl rfl
      | some ver =>
        right
        have h1 := hJ (by rw [hpv]; intro hcon; cases hcon)
        rw [includes_true_iff] at h1 ⊢
        exact infix_trim_of_infix docVersionKey _ (by decide) (by decide) h1
    obtain ⟨hpre0, hpost0⟩ := hL2 hlang2 hdv2 hlay2
    rw [hB2, hpre0, hpost0]
    simp only [List.nil_append, List.append_nil]
    rw [trim_trim, hB]

theorem last_not_ws_of_head_rev (s : Str) (b : Char) (hb : s.reverse.head? = some b)
    (hws : isWS b = false) : ∀ a t, s.reverse = a :: t → isWS a = false := by
  intro a t h
  rw [h] at hb
  have hab : a = b := by simpa using hb
  rw [hab]
  exact hws

/-- Witness for C1 at a concrete file whose frontmatter already has a
`layout:` key, with locale `es` and version `v1`. -/
theorem c1_injectLayout_idempotent_nondestructive_witness :
    frontmatterOf
      (injectLayoutIntoMarkdown
        (InjectParams.mk (some (strOf "es")) (some (strOf "v1")) 0
          (strOf "layouts/MarkdownLayout.astro") (strOf "layouts/APILayout.astro")
          (strOf "x.md"))
        (injectLayoutIntoMarkdown
          (InjectParams.mk (some (strOf "es")) (some (strOf "v1")) 0
            (strOf "layouts/MarkdownLayout.astro") (strOf "layouts/APILayout.astro")
            (strOf "x.md"))
          (strOf "---\nlayout: custom.astro\n---\nBody"))) =
    frontmatterOf
      (injectLayoutIntoMarkdown
        (InjectParams.mk (some (strOf "es")) (some (strOf "v1")) 0
          (strOf "layouts/MarkdownLayout.astro") (strOf "layouts/APILayout.astro")
          (strOf "x.md"))
        (strOf "---\nlayout: custom.astro\n---\nBody")) :=
  (c1_injectLayout_idempotent_nondestructive
    (InjectParams.mk (some (strOf "es")) (some (strOf "v1")) 0
      (strOf "layouts/MarkdownLayout.astro") (strOf "layouts/APILayout.astro")
      (strOf "x.md"))
    (strOf "---\nlayout: custom.astro\n---\nBody")
    (strOf "layout: custom.astro") (strOf "\nBody")
    (by decide)
    (fun loc h => by cases h; exact ⟨by decide, by decide, by decide⟩)
    (fun ver h => by cases h; exact ⟨by decide, by decide, by decide⟩)
    ⟨by decide, by decide,
      last_not_ws_of_head_rev (strOf "layouts/MarkdownLayout.astro") 'o' (by decide)
        (by decide)⟩
    ⟨by decide, by decide,
      last_not_ws_of_head_rev (strOf "layouts/APILayout.astro") 'o' (by decide)
        (by decide)⟩).2.2.2

end Lito
